import Mathlib

/-!
Verification of core routines of the PBSolver25 pseudo-Boolean solver.

Each Rust routine under scrutiny is shallowly embedded as an executable
Lean definition; machine integers (`u64` / `u128`) are modelled by `Nat`
(the analyzer's flatten step keeps all magnitudes far below the word
size, so wrap-around never matters for the properties treated here),
and arithmetic that the source carries through a subtraction that can
go below zero is modelled in `Int` where noted.
-/

namespace PBSolver

/-- A literal: variable index and polarity.  The source packs the pair
into one machine word (`bits = index << 1 | value`); the projections
`index` and `value` and negation (`bits ^ 1`, i.e. flip the polarity)
are modelled directly on the unpacked pair. -/
structure Literal where
  index : Nat
  value : Bool
deriving DecidableEq, Repr

/-- Negation (`Not for Literal`): flip the polarity bit. -/
def Literal.neg (l : Literal) : Literal := ⟨l.index, !l.value⟩

/-- A linear constraint `Σ aᵢ·ℓᵢ ≥ lower`: list of terms plus the
right-hand side, as in `LinearConstraint<ValueT>`. -/
structure LinearConstraint where
  terms : List (Literal × Nat)
  lower : Nat
deriving DecidableEq, Repr

/-- Truth of a literal under a 0/1 assignment of the variables. -/
def litTrue (x : Nat → Bool) (l : Literal) : Bool := x l.index == l.value

/-- Value of the left-hand side `Σ aᵢ·[ℓᵢ true]` under assignment `x`. -/
def lhsVal (x : Nat → Bool) (terms : List (Literal × Nat)) : Nat :=
  (terms.map (fun t => if litTrue x t.1 then t.2 else 0)).sum

/-- Whether `x` satisfies the constraint. -/
def satisfies (x : Nat → Bool) (c : LinearConstraint) : Prop :=
  lhsVal x c.terms ≥ c.lower

instance (x : Nat → Bool) (c : LinearConstraint) : Decidable (satisfies x c) := by
  unfold satisfies; infer_instance

/-- Model of `calculate_gcd` (analyze/utility.rs): fold `gcd` over the values
starting from `0`, stopping early once the running value is `1`. -/
def calculate_gcd_aux (x : Nat) : List Nat → Nat
  | [] => x
  | y :: rest => if x = 1 then x else calculate_gcd_aux (Nat.gcd x y) rest

/-- Entry point of `calculate_gcd` (running value starts at `0`). -/
def calculate_gcd (values : List Nat) : Nat := calculate_gcd_aux 0 values

/-- gcd of a list by a plain fold (no early exit); used to reason about
`calculate_gcd`. -/
def listGcd (values : List Nat) : Nat := values.foldr Nat.gcd 0

/-- Ceiling division `num::Integer::div_ceil` on unsigned integers: `⌈a / b⌉`. -/
def div_ceil (a b : Nat) : Nat := (a + b - 1) / b

/-- Sum of the coefficients strictly below `lower`
(`sum_of_unsaturating_coefficients` in the source). -/
def sum_of_unsaturating_coefficients (c : LinearConstraint) : Nat :=
  ((c.terms.filter (fun t => t.2 < c.lower)).map (fun t => t.2)).sum

/-- Whether `strengthen_integer_linear_constraint` takes its second
(saturate-then-divide-by-gcd) branch. -/
def takesGcdBranch (c : LinearConstraint) : Bool :=
  !(sum_of_unsaturating_coefficients c < c.lower)

/-- The gcd computed in the second branch: `calculate_gcd` over the
saturated coefficients `min aᵢ lower` of all terms. -/
def strengthenGcd (c : LinearConstraint) : Nat :=
  calculate_gcd (c.terms.map (fun t => min t.2 c.lower))

/-- Model of `strengthen_integer_linear_constraint` (pb_engine2/analyze/utility.rs).
If the sum `S` of coefficients strictly below `lower` satisfies
`S < lower`, keep only the terms with coefficient `≥ lower` and set the
right-hand side to `1`; otherwise saturate every coefficient at `lower`,
drop zero-coefficient terms and divide everything by the gcd of the
saturated coefficients, the right-hand side by ceiling division. -/
def strengthen_integer_linear_constraint (c : LinearConstraint) : LinearConstraint :=
  if sum_of_unsaturating_coefficients c < c.lower then
    { terms := c.terms.filter (fun t => t.2 ≥ c.lower), lower := 1 }
  else
    { terms := c.terms.filterMap (fun t =>
        if t.2 ≠ 0 then some (t.1, min t.2 c.lower / strengthenGcd c) else none),
      lower := div_ceil c.lower (strengthenGcd c) }

/-! ### Basic lemmas about `calculate_gcd` -/

theorem foldr_gcd_one (l : List Nat) : l.foldr Nat.gcd 1 = 1 := by
  induction l with
  | nil => rfl
  | cons a l ih => simp [List.foldr, ih]

theorem calculate_gcd_aux_eq (x : Nat) (l : List Nat) :
    calculate_gcd_aux x l = Nat.gcd x (listGcd l) := by
  induction l generalizing x with
  | nil => simp [calculate_gcd_aux, listGcd]
  | cons a l ih =>
    by_cases hx : x = 1
    · subst hx
      simp [calculate_gcd_aux, listGcd, Nat.gcd_one_left]
    · simp only [calculate_gcd_aux, hx, if_false, ih, listGcd, List.foldr]
      rw [Nat.gcd_assoc]

theorem calculate_gcd_eq (l : List Nat) : calculate_gcd l = listGcd l := by
  rw [calculate_gcd, calculate_gcd_aux_eq, Nat.gcd_zero_left]

theorem listGcd_dvd {l : List Nat} {a : Nat} (h : a ∈ l) : listGcd l ∣ a := by
  induction l with
  | nil => cases h
  | cons b l ih =>
    rcases List.mem_cons.mp h with h | h
    · subst h; exact Nat.gcd_dvd_left _ _
    · exact dvd_trans (Nat.gcd_dvd_right _ _) (ih h)

theorem dvd_listGcd_of_forall {g : Nat} {l : List Nat} (h : ∀ a ∈ l, g ∣ a) :
    g ∣ listGcd l := by
  induction l with
  | nil => simp [listGcd]
  | cons a l ih =>
    exact Nat.dvd_gcd (h a (List.mem_cons_self _ _))
      (ih (fun b hb => h b (List.mem_cons_of_mem _ hb)))

theorem listGcd_div (g : Nat) (l : List Nat) (h : ∀ a ∈ l, g ∣ a) :
    listGcd (l.map (· / g)) = listGcd l / g := by
  induction l with
  | nil => simp [listGcd]
  | cons a l ih =>
    simp only [List.map, listGcd, List.foldr] at *
    rw [ih (fun b hb => h b (List.mem_cons_of_mem _ hb))]
    exact Nat.gcd_div (h a (List.mem_cons_self _ _))
      (dvd_listGcd_of_forall (fun b hb => h b (List.mem_cons_of_mem _ hb)))

/-! ### Ceiling division -/

theorem div_ceil_le_iff {L g s : Nat} (hg : 0 < g) :
    div_ceil L g ≤ s ↔ L ≤ g * s := by
  unfold div_ceil
  rw [Nat.div_le_iff_le_mul_add_pred hg]
  omega

theorem div_ceil_eq_div {L g : Nat} (hg : 0 < g) (h : g ∣ L) :
    div_ceil L g = L / g := by
  rcases h with ⟨k, rfl⟩
  unfold div_ceil
  rw [Nat.mul_div_cancel_left _ hg]
  have h1 : g * k + g - 1 = (g - 1) + k * g := by
    have := Nat.one_le_iff_ne_zero.mpr (Nat.pos_iff_ne_zero.mp hg)
    ring_nf
    omega
  rw [h1, Nat.add_mul_div_right _ _ hg, Nat.div_eq_of_lt (by omega)]
  omega

/-! ### Lemmas about `lhsVal` -/

theorem lhsVal_cons (x : Nat → Bool) (t : Literal × Nat) (l : List (Literal × Nat)) :
    lhsVal x (t :: l) = (if litTrue x t.1 then t.2 else 0) + lhsVal x l := by
  simp [lhsVal]

theorem lhsVal_le_sum (x : Nat → Bool) (l : List (Literal × Nat)) :
    lhsVal x l ≤ (l.map (fun t => t.2)).sum := by
  induction l with
  | nil => simp [lhsVal]
  | cons t l ih =>
    rw [lhsVal_cons]
    simp only [List.map, List.sum_cons]
    by_cases h : litTrue x t.1 = true
    · rw [if_pos h]; omega
    · rw [if_neg h]; omega

/-- Splitting the left-hand side at coefficient threshold `L`. -/
theorem lhsVal_split (x : Nat → Bool) (L : Nat) (l : List (Literal × Nat)) :
    lhsVal x l =
      lhsVal x (l.filter (fun t => t.2 ≥ L)) + lhsVal x (l.filter (fun t => t.2 < L)) := by
  induction l with
  | nil => simp [lhsVal]
  | cons t l ih =>
    by_cases h : t.2 ≥ L
    · rw [lhsVal_cons, List.filter_cons_of_pos (by simpa using h),
        List.filter_cons_of_neg (by simp; omega), lhsVal_cons, ih]
      omega
    · rw [lhsVal_cons, List.filter_cons_of_neg (by simpa using h),
        List.filter_cons_of_pos (by simp; omega), lhsVal_cons, ih]
      omega

/-- In a list whose coefficients are all `≥ L`, a positive left-hand side
is at least `L`. -/
theorem lhsVal_big {x : Nat → Bool} {L : Nat} {l : List (Literal × Nat)}
    (hl : ∀ t ∈ l, L ≤ t.2) (h1 : 1 ≤ lhsVal x l) : L ≤ lhsVal x l := by
  induction l with
  | nil => simp [lhsVal] at h1
  | cons t l ih =>
    rw [lhsVal_cons] at h1 ⊢
    by_cases h : litTrue x t.1 = true
    · rw [if_pos h]
      have := hl t (List.mem_cons_self _ _)
      omega
    · rw [if_neg h] at h1 ⊢
      simp only [Nat.zero_add] at h1 ⊢
      exact ih (fun u hu => hl u (List.mem_cons_of_mem _ hu)) h1

theorem le_lhsVal_of_mem {x : Nat → Bool} {l : List (Literal × Nat)} {t : Literal × Nat}
    (ht : t ∈ l) (htrue : litTrue x t.1 = true) : t.2 ≤ lhsVal x l := by
  induction l with
  | nil => cases ht
  | cons u l ih =>
    rw [lhsVal_cons]
    rcases List.mem_cons.mp ht with h | h
    · subst h; rw [if_pos htrue]; omega
    · have := ih h
      omega

theorem sum_pos_mem {l : List (Literal × Nat)} {f : Literal × Nat → Nat}
    (h : 1 ≤ (l.map f).sum) : ∃ t ∈ l, 1 ≤ f t := by
  induction l with
  | nil => simp at h
  | cons t l ih =>
    simp only [List.map, List.sum_cons] at h
    by_cases ht : 1 ≤ f t
    · exact ⟨t, List.mem_cons_self _ _, ht⟩
    · have : 1 ≤ (l.map f).sum := by omega
      obtain ⟨u, hu, hfu⟩ := ih this
      exact ⟨u, List.mem_cons_of_mem _ hu, hfu⟩

/-! ### C1: strengthen preserves the constraint's logical meaning -/

theorem strengthen_branch2_terms_lhs (x : Nat → Bool) (L g : Nat)
    (l : List (Literal × Nat)) :
    lhsVal x (l.filterMap (fun t =>
        if t.2 ≠ 0 then some (t.1, min t.2 L / g) else none)) =
      lhsVal x (l.map (fun t => (t.1, min t.2 L / g))) := by
  induction l with
  | nil => simp [lhsVal]
  | cons t l ih =>
    rw [List.filterMap_cons]
    by_cases h : t.2 = 0
    · have hcond : ¬ (t.2 ≠ 0) := fun hc => hc h
      simp only [if_neg hcond]
      rw [List.map_cons, lhsVal_cons, ih, h]
      simp
    · simp only [if_pos h]
      rw [List.map_cons, lhsVal_cons, lhsVal_cons, ih]

theorem lhsVal_scale_div (x : Nat → Bool) (g : Nat) (l : List (Literal × Nat))
    (hdvd : ∀ t ∈ l, g ∣ t.2) :
    g * lhsVal x (l.map (fun t => (t.1, t.2 / g))) = lhsVal x l := by
  induction l with
  | nil => simp [lhsVal]
  | cons t l ih =>
    rw [List.map, lhsVal_cons, lhsVal_cons, Nat.mul_add,
      ih (fun u hu => hdvd u (List.mem_cons_of_mem _ hu))]
    by_cases h : litTrue x t.1 = true
    · rw [if_pos h, if_pos h, Nat.mul_div_cancel' (hdvd t (List.mem_cons_self _ _))]
    · rw [if_neg h, if_neg h, Nat.mul_zero]

theorem lhsVal_map_min_le (x : Nat → Bool) (L : Nat) (l : List (Literal × Nat)) :
    lhsVal x (l.map (fun t => (t.1, min t.2 L))) ≤ lhsVal x l := by
  induction l with
  | nil => simp [lhsVal]
  | cons t l ih =>
    rw [List.map, lhsVal_cons, lhsVal_cons]
    by_cases ht : litTrue x t.1 = true
    · rw [if_pos ht, if_pos ht]
      have : min t.2 L ≤ t.2 := Nat.min_le_left _ _
      omega
    · rw [if_neg ht, if_neg ht]
      omega

theorem lhsVal_map_min_of_small (x : Nat → Bool) (L : Nat) (l : List (Literal × Nat))
    (hsmall : ∀ t ∈ l, litTrue x t.1 = true → t.2 < L) :
    lhsVal x (l.map (fun t => (t.1, min t.2 L))) = lhsVal x l := by
  induction l with
  | nil => simp [lhsVal]
  | cons t l ih =>
    rw [List.map, lhsVal_cons, lhsVal_cons]
    have ihl := ih (fun u hu htrue => hsmall u (List.mem_cons_of_mem _ hu) htrue)
    by_cases ht : litTrue x t.1 = true
    · have h2 : t.2 < L := hsmall t (List.mem_cons_self _ _) ht
      rw [if_pos ht, if_pos ht, Nat.min_eq_left (Nat.le_of_lt h2)]
      omega
    · rw [if_neg ht, if_neg ht]
      omega

theorem lhsVal_saturate (x : Nat → Bool) (L : Nat) (l : List (Literal × Nat)) :
    L ≤ lhsVal x (l.map (fun t => (t.1, min t.2 L))) ↔ L ≤ lhsVal x l := by
  constructor
  · intro h
    have := lhsVal_map_min_le x L l
    omega
  · intro h
    by_cases hbig : ∃ t ∈ l, litTrue x t.1 = true ∧ L ≤ t.2
    · obtain ⟨t, ht, htrue, hL⟩ := hbig
      have hmem : (t.1, min t.2 L) ∈ l.map (fun t => (t.1, min t.2 L)) :=
        List.mem_map_of_mem _ ht
      have := le_lhsVal_of_mem hmem htrue
      simp only [Nat.min_eq_right hL] at this
      omega
    · push_neg at hbig
      have := lhsVal_map_min_of_small x L l (fun t ht htrue => by
        have := hbig t ht htrue
        omega)
      omega

/-- In the gcd branch, the gcd of the saturated coefficients is positive
(the branch condition forces some positive coefficient strictly below
`lower`, which survives saturation). -/
theorem strengthenGcd_pos {c : LinearConstraint} (hL : 1 ≤ c.lower)
    (hbr : ¬ sum_of_unsaturating_coefficients c < c.lower) :
    0 < strengthenGcd c := by
  have hS : 1 ≤ sum_of_unsaturating_coefficients c := by omega
  obtain ⟨t, ht, h1⟩ := sum_pos_mem hS
  have hsmall : t.2 < c.lower := by
    have := List.of_mem_filter ht
    simpa using this
  have htmem : t ∈ c.terms := List.mem_of_mem_filter ht
  have hdvd : strengthenGcd c ∣ min t.2 c.lower := by
    rw [strengthenGcd, calculate_gcd_eq]
    exact listGcd_dvd (List.mem_map_of_mem _ htmem)
  rw [Nat.min_eq_left (Nat.le_of_lt hsmall)] at hdvd
  rcases Nat.eq_zero_or_pos (strengthenGcd c) with h0 | h
  · rw [h0] at hdvd
    have := Nat.eq_zero_of_zero_dvd hdvd
    omega
  · exact h

theorem strengthenGcd_dvd {c : LinearConstraint} {t : Literal × Nat}
    (ht : t ∈ c.terms) : strengthenGcd c ∣ min t.2 c.lower := by
  rw [strengthenGcd, calculate_gcd_eq]
  exact listGcd_dvd (List.mem_map_of_mem _ ht)

/-- C1: for every integer linear constraint with `rhs ≥ 1`, the
strengthened constraint is logically equivalent to the original: a 0/1
assignment satisfies the one iff it satisfies the other (both the
collapse-to-rhs-1 branch and the saturate-then-divide branch). -/
theorem strengthen_preserves_meaning (c : LinearConstraint) (x : Nat → Bool)
    (hL : 1 ≤ c.lower) :
    satisfies x (strengthen_integer_linear_constraint c) ↔ satisfies x c := by
  unfold strengthen_integer_linear_constraint
  by_cases hbr : sum_of_unsaturating_coefficients c < c.lower
  · simp only [hbr, if_true]
    unfold satisfies
    simp only
    have hsplit := lhsVal_split x c.lower c.terms
    have hsmall : lhsVal x (c.terms.filter (fun t => t.2 < c.lower)) ≤
        sum_of_unsaturating_coefficients c := lhsVal_le_sum _ _
    constructor
    · intro h
      have hbig : c.lower ≤ lhsVal x (c.terms.filter (fun t => t.2 ≥ c.lower)) := by
        apply lhsVal_big
        · intro t ht
          have := List.of_mem_filter ht
          simpa using this
        · exact h
      omega
    · intro h
      omega
  · simp only [hbr, if_false]
    unfold satisfies
    simp only
    have hg : 0 < strengthenGcd c := strengthenGcd_pos hL hbr
    rw [strengthen_branch2_terms_lhs x c.lower (strengthenGcd c) c.terms]
    rw [ge_iff_le, div_ceil_le_iff hg]
    have hscale : strengthenGcd c *
        lhsVal x (c.terms.map (fun t => (t.1, min t.2 c.lower / strengthenGcd c))) =
        lhsVal x (c.terms.map (fun t => (t.1, min t.2 c.lower))) := by
      have := lhsVal_scale_div x (strengthenGcd c)
        (c.terms.map (fun t => (t.1, min t.2 c.lower)))
        (by
          intro u hu
          obtain ⟨t, ht, rfl⟩ := List.mem_map.mp hu
          exact strengthenGcd_dvd ht)
      rw [← this, List.map_map]
      rfl
    rw [hscale, lhsVal_saturate]

/-- Witness for C1 at the concrete constraint `2·x₀ + 2·x₁ ≥ 3` and the
all-true assignment. -/
theorem strengthen_preserves_meaning_witness :
    1 ≤ (LinearConstraint.mk [(⟨0, true⟩, 2), (⟨1, true⟩, 2)] 3).lower ∧
      (satisfies (fun _ => true)
          (strengthen_integer_linear_constraint
            (LinearConstraint.mk [(⟨0, true⟩, 2), (⟨1, true⟩, 2)] 3)) ↔
        satisfies (fun _ => true)
          (LinearConstraint.mk [(⟨0, true⟩, 2), (⟨1, true⟩, 2)] 3)) :=
  ⟨by decide,
    strengthen_preserves_meaning (LinearConstraint.mk [(⟨0, true⟩, 2), (⟨1, true⟩, 2)] 3)
      (fun _ => true) (by decide)⟩

/-! ### C6 / C7: idempotence of strengthen, and the division step -/

theorem div_ceil_one (a : Nat) : div_ceil a 1 = a := by
  simp [div_ceil]

theorem div_le_div_ceil (L g : Nat) : L / g ≤ div_ceil L g := by
  rcases Nat.eq_zero_or_pos g with h | h
  · subst h; simp [div_ceil]
  · exact Nat.div_le_div_right (by omega)

theorem add_div_of_dvd {g a b : Nat} (hg : 0 < g) (ha : g ∣ a) :
    (a + b) / g = a / g + b / g := by
  rcases ha with ⟨k, rfl⟩
  rw [Nat.mul_div_cancel_left _ hg, Nat.add_comm (g * k) b, Nat.mul_comm g k,
    Nat.add_mul_div_right _ _ hg]
  omega

theorem listGcd_cons (a : Nat) (l : List Nat) :
    listGcd (a :: l) = Nat.gcd a (listGcd l) := rfl

theorem strengthenGcd_mk (T : List (Literal × Nat)) (L : Nat) :
    strengthenGcd ⟨T, L⟩ = listGcd (T.map (fun t => min t.2 L)) :=
  calculate_gcd_eq _

theorem sum_of_unsaturating_mk (T : List (Literal × Nat)) (L : Nat) :
    sum_of_unsaturating_coefficients ⟨T, L⟩
      = ((T.filter (fun t => t.2 < L)).map (fun t => t.2)).sum := rfl

theorem filterMap_eq_self {α : Type} {f : α → Option α} {l : List α}
    (h : ∀ a ∈ l, f a = some a) : l.filterMap f = l := by
  induction l with
  | nil => rfl
  | cons a l ih =>
    simp [List.filterMap_cons, h a (List.mem_cons_self _ _),
      ih (fun b hb => h b (List.mem_cons_of_mem _ hb))]

/-- Destructuring membership in the gcd-branch term list of `strengthen`. -/
theorem mem_strengthen_gcd_terms {L g : Nat} {l : List (Literal × Nat)} {u : Literal × Nat}
    (hu : u ∈ l.filterMap (fun t => if t.2 ≠ 0 then some (t.1, min t.2 L / g) else none)) :
    ∃ t ∈ l, t.2 ≠ 0 ∧ u = (t.1, min t.2 L / g) := by
  obtain ⟨t, ht, hfu⟩ := List.mem_filterMap.mp hu
  by_cases h0 : t.2 ≠ 0
  · rw [if_pos h0] at hfu
    exact ⟨t, ht, h0, (Option.some_inj.mp hfu).symm⟩
  · rw [if_neg h0] at hfu
    cases hfu

/-- The sum of sub-`rhs` coefficients of the gcd-branch output is the
original sub-`rhs` sum divided by the gcd. -/
theorem strengthen_unsat_sum_div (L g : Nat) (hg : 0 < g) (hL : 1 ≤ L)
    (l : List (Literal × Nat)) (hdvd : ∀ t ∈ l, g ∣ min t.2 L) :
    (((l.filterMap (fun t => if t.2 ≠ 0 then some (t.1, min t.2 L / g) else none)).filter
        (fun u => u.2 < div_ceil L g)).map (fun u => u.2)).sum
      = ((l.filter (fun t => t.2 < L)).map (fun t => t.2)).sum / g := by
  induction l with
  | nil => simp
  | cons t l ih =>
    have ihl := ih (fun u hu => hdvd u (List.mem_cons_of_mem _ hu))
    have hdt := hdvd t (List.mem_cons_self _ _)
    rw [List.filterMap_cons]
    by_cases h0 : t.2 = 0
    · simp only [if_neg (show ¬(t.2 ≠ 0) from fun hc => hc h0)]
      rw [List.filter_cons_of_pos (by simpa using (by omega : t.2 < L))]
      simp only [List.map_cons, List.sum_cons, h0, Nat.zero_add]
      exact ihl
    · by_cases hlt : t.2 < L
      · have hle : t.2 ≤ L := Nat.le_of_lt hlt
        have hdvd2 : g ∣ t.2 := by rwa [Nat.min_eq_left hle] at hdt
        have hu2 : t.2 / g < div_ceil L g := by
          by_contra hge
          have := (div_ceil_le_iff hg).mp (Nat.le_of_not_lt hge)
          rw [Nat.mul_div_cancel' hdvd2] at this
          omega
        simp only [if_pos h0, Nat.min_eq_left hle]
        rw [List.filter_cons_of_pos (by simpa using hu2),
          List.filter_cons_of_pos (by simpa using hlt)]
        simp only [List.map_cons, List.sum_cons]
        rw [ihl, add_div_of_dvd hg hdvd2]
      · have hge : L ≤ t.2 := Nat.le_of_not_lt hlt
        have hdvdL : g ∣ L := by rwa [Nat.min_eq_right hge] at hdt
        have hnotlt : ¬ (min t.2 L / g < div_ceil L g) := by
          rw [Nat.min_eq_right hge, div_ceil_eq_div hg hdvdL]
          omega
        simp only [if_pos h0]
        rw [List.filter_cons_of_neg (by simpa using hnotlt),
          List.filter_cons_of_neg (by simpa using hlt)]
        exact ihl

/-- The gcd of the gcd-branch output coefficients is the original gcd of
the saturated coefficients divided by itself. -/
theorem strengthen_terms_gcd (L g : Nat) (hg : 0 < g)
    (l : List (Literal × Nat)) (hdvd : ∀ t ∈ l, g ∣ min t.2 L) :
    listGcd ((l.filterMap (fun t =>
        if t.2 ≠ 0 then some (t.1, min t.2 L / g) else none)).map (fun u => u.2))
      = listGcd (l.map (fun t => min t.2 L)) / g := by
  induction l with
  | nil => simp [listGcd]
  | cons t l ih =>
    have ihl := ih (fun u hu => hdvd u (List.mem_cons_of_mem _ hu))
    have hdt := hdvd t (List.mem_cons_self _ _)
    have hrest : g ∣ listGcd (l.map (fun t => min t.2 L)) := by
      apply dvd_listGcd_of_forall
      intro a ha
      obtain ⟨u, hu, rfl⟩ := List.mem_map.mp ha
      exact hdvd u (List.mem_cons_of_mem _ hu)
    rw [List.filterMap_cons]
    by_cases h0 : t.2 = 0
    · simp only [if_neg (show ¬(t.2 ≠ 0) from fun hc => hc h0)]
      rw [List.map_cons, listGcd_cons, h0, Nat.zero_min, Nat.gcd_zero_left]
      exact ihl
    · simp only [if_pos h0]
      rw [List.map_cons, List.map_cons, listGcd_cons, listGcd_cons, ihl,
        ← Nat.gcd_div hdt hrest]

/-- C6: strengthening is idempotent — applying
`strengthen_integer_linear_constraint` to its own output returns the
output unchanged (same term list, same right-hand side), for every
constraint with `rhs ≥ 1`. -/
theorem strengthen_idempotent (c : LinearConstraint) (hL : 1 ≤ c.lower) :
    strengthen_integer_linear_constraint (strengthen_integer_linear_constraint c)
      = strengthen_integer_linear_constraint c := by
  by_cases hbr : sum_of_unsaturating_coefficients c < c.lower
  · have hout : strengthen_integer_linear_constraint c =
        ⟨c.terms.filter (fun t => t.2 ≥ c.lower), 1⟩ := by
      unfold strengthen_integer_linear_constraint
      rw [if_pos hbr]
    rw [hout]
    have hbig : ∀ t ∈ c.terms.filter (fun t => t.2 ≥ c.lower), c.lower ≤ t.2 := by
      intro t ht
      have := List.of_mem_filter ht
      simpa using this
    have hS : sum_of_unsaturating_coefficients
        ⟨c.terms.filter (fun t => t.2 ≥ c.lower), 1⟩ = 0 := by
      rw [sum_of_unsaturating_mk]
      rw [List.filter_eq_nil_iff.mpr (fun t ht => by
        have h1 := hbig t ht
        simp only [decide_eq_true_eq, Nat.not_lt]
        omega)]
      rfl
    unfold strengthen_integer_linear_constraint
    rw [if_pos (by rw [hS]; exact Nat.zero_lt_one)]
    simp only [LinearConstraint.mk.injEq]
    refine ⟨List.filter_eq_self.mpr (fun t ht => by
      have h1 := hbig t ht
      simp only [decide_eq_true_eq, ge_iff_le]
      omega), trivial⟩
  · have hg : 0 < strengthenGcd c := strengthenGcd_pos hL hbr
    have hdvd : ∀ t ∈ c.terms, strengthenGcd c ∣ min t.2 c.lower :=
      fun t ht => strengthenGcd_dvd ht
    have hout : strengthen_integer_linear_constraint c =
        ⟨c.terms.filterMap (fun t =>
            if t.2 ≠ 0 then some (t.1, min t.2 c.lower / strengthenGcd c) else none),
          div_ceil c.lower (strengthenGcd c)⟩ := by
      unfold strengthen_integer_linear_constraint
      rw [if_neg hbr]
    rw [hout]
    have hmem1 : ∀ u ∈ c.terms.filterMap (fun t =>
        if t.2 ≠ 0 then some (t.1, min t.2 c.lower / strengthenGcd c) else none),
        1 ≤ u.2 ∧ u.2 ≤ div_ceil c.lower (strengthenGcd c) := by
      intro u hu
      obtain ⟨t, ht, h0, rfl⟩ := mem_strengthen_gcd_terms hu
      have hmin1 : 1 ≤ min t.2 c.lower := by
        have : 1 ≤ t.2 := by omega
        omega
      have hgle : strengthenGcd c ≤ min t.2 c.lower :=
        Nat.le_of_dvd hmin1 (hdvd t ht)
      constructor
      · exact Nat.div_pos hgle hg
      · calc min t.2 c.lower / strengthenGcd c
            ≤ c.lower / strengthenGcd c :=
              Nat.div_le_div_right (Nat.min_le_right _ _)
          _ ≤ div_ceil c.lower (strengthenGcd c) := div_le_div_ceil _ _
    have hSdvd : strengthenGcd c ∣
        ((c.terms.filter (fun t => t.2 < c.lower)).map (fun t => t.2)).sum := by
      apply List.dvd_sum
      intro a ha
      obtain ⟨t, ht, rfl⟩ := List.mem_map.mp ha
      have hlt : t.2 < c.lower := by
        have := List.of_mem_filter ht
        simpa using this
      have := hdvd t (List.mem_of_mem_filter ht)
      rwa [Nat.min_eq_left (Nat.le_of_lt hlt)] at this
    have hS2 : ¬ sum_of_unsaturating_coefficients
        ⟨c.terms.filterMap (fun t =>
            if t.2 ≠ 0 then some (t.1, min t.2 c.lower / strengthenGcd c) else none),
          div_ceil c.lower (strengthenGcd c)⟩ <
        div_ceil c.lower (strengthenGcd c) := by
      rw [sum_of_unsaturating_mk,
        strengthen_unsat_sum_div c.lower (strengthenGcd c) hg hL c.terms hdvd,
        Nat.not_lt, div_ceil_le_iff hg, Nat.mul_div_cancel' hSdvd]
      unfold sum_of_unsaturating_coefficients at hbr
      omega
    have hg1 : strengthenGcd
        ⟨c.terms.filterMap (fun t =>
            if t.2 ≠ 0 then some (t.1, min t.2 c.lower / strengthenGcd c) else none),
          div_ceil c.lower (strengthenGcd c)⟩ = 1 := by
      rw [strengthenGcd_mk]
      have hcong : ((c.terms.filterMap (fun t =>
          if t.2 ≠ 0 then some (t.1, min t.2 c.lower / strengthenGcd c) else none)).map
            (fun u => min u.2 (div_ceil c.lower (strengthenGcd c))))
          = ((c.terms.filterMap (fun t =>
          if t.2 ≠ 0 then some (t.1, min t.2 c.lower / strengthenGcd c) else none)).map
            (fun u => u.2)) := by
        apply List.map_congr_left
        intro u hu
        exact Nat.min_eq_left (hmem1 u hu).2
      rw [hcong, strengthen_terms_gcd c.lower (strengthenGcd c) hg c.terms hdvd]
      have hgl : listGcd (c.terms.map (fun t => min t.2 c.lower)) = strengthenGcd c :=
        (calculate_gcd_eq _).symm
      rw [hgl, Nat.div_self hg]
    unfold strengthen_integer_linear_constraint
    rw [if_neg hS2]
    simp only [LinearConstraint.mk.injEq]
    constructor
    · rw [hg1]
      apply filterMap_eq_self
      intro u hu
      have h1 := (hmem1 u hu).1
      have h2 := (hmem1 u hu).2
      rw [if_pos (by omega : u.2 ≠ 0), Nat.min_eq_left h2, Nat.div_one]
    · rw [hg1, div_ceil_one]

/-- Witness for C6: strengthening `2·x₀ + 2·x₁ + 1·x₂ ≥ 4` twice gives
the same constraint as once. -/
theorem strengthen_idempotent_witness :
    1 ≤ (LinearConstraint.mk [(⟨0, true⟩, 2), (⟨1, true⟩, 2), (⟨2, true⟩, 1)] 4).lower ∧
      strengthen_integer_linear_constraint (strengthen_integer_linear_constraint
        (LinearConstraint.mk [(⟨0, true⟩, 2), (⟨1, true⟩, 2), (⟨2, true⟩, 1)] 4))
        = strengthen_integer_linear_constraint
            (LinearConstraint.mk [(⟨0, true⟩, 2), (⟨1, true⟩, 2), (⟨2, true⟩, 1)] 4) :=
  ⟨by decide,
    strengthen_idempotent
      (LinearConstraint.mk [(⟨0, true⟩, 2), (⟨1, true⟩, 2), (⟨2, true⟩, 1)] 4) (by decide)⟩

/-- C7 counterexample: `2·x₀ + 2·x₁ ≥ 3` takes the gcd branch
(`S = 4 ≥ 3`), its saturated-coefficient gcd is `2`, which does not
divide the right-hand side `3`, and the ceiling division differs from
the exact division: `⌈3/2⌉ = 2 ≠ 1 = 3/2`. -/
theorem strengthen_gcd_not_exact_counterexample :
    takesGcdBranch (LinearConstraint.mk [(⟨0, true⟩, 2), (⟨1, true⟩, 2)] 3) = true ∧
      strengthenGcd (LinearConstraint.mk [(⟨0, true⟩, 2), (⟨1, true⟩, 2)] 3) = 2 ∧
      ¬ (strengthenGcd (LinearConstraint.mk [(⟨0, true⟩, 2), (⟨1, true⟩, 2)] 3) ∣
          (LinearConstraint.mk [(⟨0, true⟩, 2), (⟨1, true⟩, 2)] 3).lower) ∧
      div_ceil 3 (strengthenGcd (LinearConstraint.mk [(⟨0, true⟩, 2), (⟨1, true⟩, 2)] 3))
        ≠ 3 / strengthenGcd (LinearConstraint.mk [(⟨0, true⟩, 2), (⟨1, true⟩, 2)] 3) := by
  refine ⟨by decide, by decide, ?_, by decide⟩
  intro h
  have : (2 : Nat) ∣ 3 := by
    have h2 : strengthenGcd (LinearConstraint.mk [(⟨0, true⟩, 2), (⟨1, true⟩, 2)] 3) = 2 := by
      decide
    rwa [h2] at h
  omega

/-- C7 amended: in the gcd branch the new rhs is `⌈rhs/g⌉`; when some
coefficient is at least `rhs` (so the saturated value `rhs` itself enters
the gcd), `g` divides `rhs` and the ceiling division is exact. -/
theorem strengthen_gcd_branch_exact_division (c : LinearConstraint)
    (hL : 1 ≤ c.lower) (hbr : takesGcdBranch c = true)
    (hsat : ∃ t ∈ c.terms, c.lower ≤ t.2) :
    strengthenGcd c ∣ c.lower ∧
      div_ceil c.lower (strengthenGcd c) = c.lower / strengthenGcd c := by
  obtain ⟨t, ht, hts⟩ := hsat
  have hdvd := strengthenGcd_dvd ht
  rw [Nat.min_eq_right hts] at hdvd
  have hbr2 : ¬ sum_of_unsaturating_coefficients c < c.lower := by
    simpa [takesGcdBranch] using hbr
  have hg : 0 < strengthenGcd c := strengthenGcd_pos hL hbr2
  exact ⟨hdvd, div_ceil_eq_div hg hdvd⟩

/-- Witness for the amended C7 at `3·x₀ + 2·x₁ + 2·x₂ ≥ 3`. -/
theorem strengthen_gcd_branch_exact_division_witness :
    1 ≤ (LinearConstraint.mk [(⟨0, true⟩, 3), (⟨1, true⟩, 2), (⟨2, true⟩, 2)] 3).lower ∧
      takesGcdBranch (LinearConstraint.mk [(⟨0, true⟩, 3), (⟨1, true⟩, 2), (⟨2, true⟩, 2)] 3)
        = true ∧
      (∃ t ∈ (LinearConstraint.mk [(⟨0, true⟩, 3), (⟨1, true⟩, 2), (⟨2, true⟩, 2)] 3).terms,
        (LinearConstraint.mk [(⟨0, true⟩, 3), (⟨1, true⟩, 2), (⟨2, true⟩, 2)] 3).lower ≤ t.2) ∧
      (strengthenGcd (LinearConstraint.mk [(⟨0, true⟩, 3), (⟨1, true⟩, 2), (⟨2, true⟩, 2)] 3) ∣
          (LinearConstraint.mk [(⟨0, true⟩, 3), (⟨1, true⟩, 2), (⟨2, true⟩, 2)] 3).lower ∧
        div_ceil (LinearConstraint.mk [(⟨0, true⟩, 3), (⟨1, true⟩, 2), (⟨2, true⟩, 2)] 3).lower
            (strengthenGcd (LinearConstraint.mk [(⟨0, true⟩, 3), (⟨1, true⟩, 2), (⟨2, true⟩, 2)] 3))
          = (LinearConstraint.mk [(⟨0, true⟩, 3), (⟨1, true⟩, 2), (⟨2, true⟩, 2)] 3).lower /
            strengthenGcd (LinearConstraint.mk [(⟨0, true⟩, 3), (⟨1, true⟩, 2), (⟨2, true⟩, 2)] 3)) :=
  ⟨by decide, by decide, by decide,
    strengthen_gcd_branch_exact_division
      (LinearConstraint.mk [(⟨0, true⟩, 3), (⟨1, true⟩, 2), (⟨2, true⟩, 2)] 3)
      (by decide) (by decide) ⟨(⟨0, true⟩, 3), by decide, by decide⟩⟩

/-! ### C5 / C2: the random-access constraint, `add_assign` and resolve

`RandomAccessibleLinearConstraint` keeps at most one `(polarity,
coefficient)` entry per variable index (the source stores them in a
dense `Map` keyed by the index); it is modelled as an association list
of `(index, polarity, coefficient)` entries.  Coefficients are `Nat`
(`u128` in the analyzer).  `lower` is carried in `Int`: the source keeps
it in the same unsigned word, which `add_assign` decrements when merging
opposite-polarity terms; `Int` records the intended value of that
subtraction (the analyzer's flatten step keeps all magnitudes far inside
the 128-bit range). -/

structure RandomAccessibleLinearConstraint where
  terms : List (Nat × Bool × Nat)
  lower : Int
deriving DecidableEq, Repr

/-- Look an entry up by variable index (`Map::get`). -/
def getEntry : List (Nat × Bool × Nat) → Nat → Option (Bool × Nat)
  | [], _ => none
  | (i, p, a) :: rest, v => if i = v then some (p, a) else getEntry rest v

/-- Insertion `Map::insert`: overwrite the entry when the key is present, append
it otherwise. -/
def mapInsert (v : Nat) (p : Bool) (a : Nat) :
    List (Nat × Bool × Nat) → List (Nat × Bool × Nat)
  | [] => [(v, p, a)]
  | (i, q, b) :: rest =>
    if i = v then (i, p, a) :: rest else (i, q, b) :: mapInsert v p a rest

/-- One iteration of the `add_assign` loop for reason term `(ℓ, c)`:
returns the updated term map together with the amount subtracted from
`lower`.  Same polarity: coefficients add.  Opposite polarity: the
smaller coefficient is cancelled against the larger (`lower` drops by
the cancelled amount), the entry flips polarity when the reason
coefficient is larger, and the entry is removed when the coefficients
are equal. -/
def addTerm (l : Literal) (c : Nat) :
    List (Nat × Bool × Nat) → List (Nat × Bool × Nat) × Nat
  | [] => ([(l.index, l.value, c)], 0)
  | (i, p, a) :: rest =>
    if i = l.index then
      if p = l.value then ((i, p, a + c) :: rest, 0)
      else if c < a then ((i, p, a - c) :: rest, c)
      else if a < c then ((i, !p, c - a) :: rest, a)
      else (rest, a)
    else
      ((i, p, a) :: (addTerm l c rest).1, (addTerm l c rest).2)

/-- Model of `RandomAccessibleLinearConstraint::add_assign`: add `lower`s, then
merge the reason terms one by one. -/
def add_assign (K : RandomAccessibleLinearConstraint) (R : LinearConstraint) :
    RandomAccessibleLinearConstraint :=
  R.terms.foldl
    (fun acc t =>
      { terms := (addTerm t.1 t.2 acc.terms).1,
        lower := acc.lower - ((addTerm t.1 t.2 acc.terms).2 : Int) })
    { terms := K.terms, lower := K.lower + (R.lower : Int) }

/-- Model of `replace_by_linear_constraint`: clear, then insert every term with a
nonzero coefficient. -/
def replace_by_linear_constraint (C : LinearConstraint) :
    RandomAccessibleLinearConstraint :=
  { terms := C.terms.foldl
      (fun acc t => if t.2 ≠ 0 then mapInsert t.1.index t.1.value t.2 acc else acc) [],
    lower := (C.lower : Int) }

/-- Scaling `mul` on a linear constraint: scale every coefficient and the lower
bound. -/
def LinearConstraint.mul (C : LinearConstraint) (k : Nat) : LinearConstraint :=
  ⟨C.terms.map (fun t => (t.1, t.2 * k)), C.lower * k⟩

/-- Left-hand-side value of a random-access term map under assignment
`x`. -/
def lhsValRA (x : Nat → Bool) (terms : List (Nat × Bool × Nat)) : Nat :=
  (terms.map (fun e => if litTrue x ⟨e.1, e.2.1⟩ then e.2.2 else 0)).sum

/-- Slack of a random-access constraint under assignment `x`:
`lhs(x) − lower`, in ℤ. -/
def slackRA (x : Nat → Bool) (K : RandomAccessibleLinearConstraint) : Int :=
  (lhsValRA x K.terms : Int) - K.lower

/-- Slack of a plain linear constraint under assignment `x`. -/
def slackL (x : Nat → Bool) (C : LinearConstraint) : Int :=
  (lhsVal x C.terms : Int) - (C.lower : Int)

theorem lhsValRA_cons (x : Nat → Bool) (e : Nat × Bool × Nat)
    (l : List (Nat × Bool × Nat)) :
    lhsValRA x (e :: l) = (if litTrue x ⟨e.1, e.2.1⟩ then e.2.2 else 0) + lhsValRA x l := by
  simp [lhsValRA]

/-- The key per-term accounting identity of `add_assign`: processing one
reason term `(ℓ, c)` raises `lhs − lower` by exactly `c·[ℓ true]`,
whichever merge branch is taken (this is the `x + (1 − x) = 1`
book-keeping for opposite-polarity merges). -/
theorem addTerm_slack (x : Nat → Bool) (l : Literal) (c : Nat)
    (terms : List (Nat × Bool × Nat)) :
    (lhsValRA x (addTerm l c terms).1 : Int) + ((addTerm l c terms).2 : Int)
      = (lhsValRA x terms : Int) + (if litTrue x l then (c : Int) else 0) := by
  induction terms with
  | nil =>
    show (lhsValRA x [(l.index, l.value, c)] : Int) + ((0 : Nat) : Int) = _
    rw [lhsValRA_cons]
    have : litTrue x ⟨l.index, l.value⟩ = litTrue x l := rfl
    rw [this]
    by_cases h : litTrue x l = true
    · rw [if_pos h, if_pos h]
      simp [lhsValRA]
    · rw [if_neg h, if_neg h]
      simp [lhsValRA]
  | cons e rest ih =>
    obtain ⟨i, p, a⟩ := e
    by_cases hi : i = l.index
    · by_cases hp : p = l.value
      · show (lhsValRA x ((addTerm l c ((i, p, a) :: rest)).1) : Int) + _ = _
        rw [addTerm, if_pos hi, if_pos hp]
        rw [lhsValRA_cons, lhsValRA_cons]
        subst hi hp
        have hlit : litTrue x ⟨l.index, l.value⟩ = litTrue x l := rfl
        simp only [hlit]
        by_cases h : litTrue x l = true
        · rw [if_pos h, if_pos h, if_pos h]
          push_cast
          ring
        · rw [if_neg h, if_neg h, if_neg h]
          push_cast
          ring
      · have hval : l.value = !p := by
          cases p <;> cases hv : l.value <;> simp_all
        have hcompl : litTrue x ⟨i, p⟩ = !(litTrue x l) := by
          subst hi
          rw [litTrue, litTrue, hval]
          cases x l.index <;> cases p <;> rfl
        rw [addTerm, if_pos hi, if_neg hp]
        by_cases h1 : c < a
        · rw [if_pos h1]
          rw [lhsValRA_cons, lhsValRA_cons]
          simp only [hcompl]
          by_cases h : litTrue x l = true
          · rw [h]
            simp only [Bool.not_true, if_neg (by simp : ¬ (false = true)), if_pos rfl]
            push_cast
            ring
          · rw [Bool.not_eq_true] at h
            rw [h]
            simp only [Bool.not_false, if_pos rfl,
              if_neg (by simp : ¬ (false = true))]
            push_cast
            omega
        · rw [if_neg h1]
          by_cases h2 : a < c
          · rw [if_pos h2]
            rw [lhsValRA_cons, lhsValRA_cons]
            have hcompl2 : litTrue x ⟨i, !p⟩ = litTrue x l := by
              subst hi
              rw [litTrue, litTrue, hval]
            simp only [hcompl, hcompl2]
            by_cases h : litTrue x l = true
            · rw [h]
              simp only [Bool.not_true, if_neg (by simp : ¬ (false = true)), if_pos rfl]
              push_cast
              omega
            · rw [Bool.not_eq_true] at h
              rw [h]
              simp only [Bool.not_false, if_pos rfl,
                if_neg (by simp : ¬ (false = true))]
              push_cast
              omega
          · have h3 : a = c := by omega
            rw [if_neg h2]
            rw [lhsValRA_cons]
            simp only [hcompl]
            subst h3
            by_cases h : litTrue x l = true
            · rw [h]
              simp only [Bool.not_true, if_neg (by simp : ¬ (false = true))]
              push_cast
              ring
            · rw [Bool.not_eq_true] at h
              rw [h]
              simp only [Bool.not_false, if_pos rfl]
              push_cast
              omega
    · rw [addTerm, if_neg hi]
      rw [lhsValRA_cons, lhsValRA_cons]
      push_cast
      push_cast at ih
      omega

theorem add_assign_fold_slack (x : Nat → Bool) (l : List (Literal × Nat)) :
    ∀ acc : RandomAccessibleLinearConstraint,
      slackRA x (l.foldl
        (fun acc t =>
          { terms := (addTerm t.1 t.2 acc.terms).1,
            lower := acc.lower - ((addTerm t.1 t.2 acc.terms).2 : Int) }) acc)
        = slackRA x acc + (lhsVal x l : Int) := by
  induction l with
  | nil => intro acc; simp [lhsVal]
  | cons t l ih =>
    intro acc
    rw [List.foldl_cons, ih, lhsVal_cons]
    unfold slackRA
    have := addTerm_slack x t.1 t.2 acc.terms
    by_cases h : litTrue x t.1 = true
    · rw [if_pos h] at this ⊢
      push_cast
      push_cast at this
      omega
    · rw [if_neg h] at this ⊢
      push_cast
      push_cast at this
      omega

/-- The slack function is additive under `add_assign`, for every 0/1
assignment. -/
theorem add_assign_slack (x : Nat → Bool) (K : RandomAccessibleLinearConstraint)
    (R : LinearConstraint) :
    slackRA x (add_assign K R) = slackRA x K + slackL x R := by
  rw [add_assign, add_assign_fold_slack]
  unfold slackRA slackL
  push_cast
  ring

/-- C5: `add_assign` preserves the slack function exactly — for every
0/1 assignment `x`, `lhs(K)(x) − lower(K)` of the merged constraint is
the sum of the slacks of the two operands; opposite-polarity terms on a
variable are merged by the `x + (1 − x) = 1` identity with `lower`
adjusted (see `addTerm`), so no merge branch loses or gains slack. -/
theorem add_assign_preserves_slack (K : RandomAccessibleLinearConstraint)
    (R : LinearConstraint) (x : Nat → Bool) :
    slackRA x (add_assign K R) = slackRA x K + slackL x R :=
  add_assign_slack x K R

/-! ### C2: the no-rounding branch of `Resolve::call` -/

/-- Model of `lhs_sup_of_linear_constraint_at`: sum of the coefficients of the
terms whose literal is not false at trail position `order`. -/
def lhs_sup_of_linear_constraint_at (C : LinearConstraint) (order : Nat)
    (isFalseAt : Literal → Nat → Bool) : Nat :=
  ((C.terms.filter (fun t => !(isFalseAt t.1 order))).map (fun t => t.2)).sum

/-- The branch guard of `Resolve::call` (evaluated in `i128` in the
source): `c_slack·rα + r_slack·cα < cα·rα`, with both slacks taken at
the trail position just before the propagation under analysis. -/
def no_rounding_condition (C R : LinearConstraint) (conflictOrder : Nat)
    (isFalseAt : Literal → Nat → Bool) (cAlpha rAlpha : Nat) : Prop :=
  ((lhs_sup_of_linear_constraint_at C (conflictOrder - 1) isFalseAt : Int)
      - (C.lower : Int)) * (rAlpha : Int)
    + ((lhs_sup_of_linear_constraint_at R (conflictOrder - 1) isFalseAt : Int)
      - (R.lower : Int)) * (cAlpha : Int)
    < (cAlpha : Int) * (rAlpha : Int)

instance (C R : LinearConstraint) (conflictOrder : Nat)
    (isFalseAt : Literal → Nat → Bool) (cAlpha rAlpha : Nat) :
    Decidable (no_rounding_condition C R conflictOrder isFalseAt cAlpha rAlpha) := by
  unfold no_rounding_condition
  infer_instance

/-- The no-rounding branch of `Resolve::call`: look up the coefficients
`cα`, `rα` of the resolving variable in the conflict and reason
constraints, set `g = gcd(cα, rα)`, replace the working constraint by
`(rα/g)·C` and `add_assign` `(cα/g)·R` onto it.  `none` models the
source's `unwrap` panic when the resolving variable is missing. -/
def Resolve_call_no_rounding (C R : LinearConstraint) (v : Nat) :
    Option RandomAccessibleLinearConstraint :=
  match C.terms.find? (fun t => t.1.index == v), R.terms.find? (fun t => t.1.index == v) with
  | some tc, some tr =>
      some (add_assign
        (replace_by_linear_constraint (C.mul (tr.2 / Nat.gcd tc.2 tr.2)))
        (R.mul (tc.2 / Nat.gcd tc.2 tr.2)))
  | _, _ => none

theorem find?_eq_of_filter_singleton {α : Type} {p : α → Bool} {l : List α} {a : α}
    (h : l.filter p = [a]) : l.find? p = some a := by
  induction l with
  | nil => simp at h
  | cons b l ih =>
    by_cases hb : p b = true
    · rw [List.filter_cons_of_pos hb] at h
      have h1 : b = a := (List.cons.injEq _ _ _ _ ▸ h).1
      rw [List.find?_cons_of_pos _ hb, h1]
    · rw [List.filter_cons_of_neg hb] at h
      rw [List.find?_cons_of_neg _ hb]
      exact ih h

theorem getEntry_eq_none_of_no_key {l : List (Nat × Bool × Nat)} {v : Nat}
    (h : ∀ e ∈ l, e.1 ≠ v) : getEntry l v = none := by
  induction l with
  | nil => rfl
  | cons e l ih =>
    rw [getEntry, if_neg (h e (List.mem_cons_self _ _))]
    exact ih (fun u hu => h u (List.mem_cons_of_mem _ hu))

/-- Applying `addTerm` for a literal of another variable leaves the entry of `v`
unchanged. -/
theorem addTerm_preserves_getEntry {l : Literal} {c : Nat} {v : Nat}
    (hv : l.index ≠ v) (terms : List (Nat × Bool × Nat)) :
    getEntry (addTerm l c terms).1 v = getEntry terms v := by
  induction terms with
  | nil =>
    show getEntry [(l.index, l.value, c)] v = none
    rw [getEntry, if_neg hv]
    rfl
  | cons e rest ih =>
    obtain ⟨i, p, a⟩ := e
    by_cases hi : i = l.index
    · have hiv : i ≠ v := hi ▸ hv
      rw [addTerm, if_pos hi]
      by_cases hp : p = l.value
      · rw [if_pos hp, getEntry, getEntry, if_neg hiv, if_neg hiv]
      · rw [if_neg hp]
        by_cases h1 : c < a
        · rw [if_pos h1, getEntry, getEntry, if_neg hiv, if_neg hiv]
        · rw [if_neg h1]
          by_cases h2 : a < c
          · rw [if_pos h2, getEntry, getEntry, if_neg hiv, if_neg hiv]
          · rw [if_neg h2, getEntry, if_neg hiv]
    · rw [addTerm, if_neg hi]
      by_cases hiv : i = v
      · rw [getEntry, getEntry, if_pos hiv, if_pos hiv]
      · rw [getEntry, getEntry, if_neg hiv, if_neg hiv, ih]

/-- When the map holds the opposite polarity with the same coefficient,
`addTerm` removes the entry of the resolving variable (given that the
map has a single entry per key). -/
theorem addTerm_removes_entry {l : Literal} {c : Nat} {p : Bool}
    {terms : List (Nat × Bool × Nat)}
    (hnodup : (terms.map (fun e => e.1)).Nodup)
    (hget : getEntry terms l.index = some (p, c)) (hp : p ≠ l.value) :
    getEntry (addTerm l c terms).1 l.index = none := by
  induction terms with
  | nil => simp [getEntry] at hget
  | cons e rest ih =>
    obtain ⟨i, q, b⟩ := e
    rw [List.map_cons, List.nodup_cons] at hnodup
    by_cases hi : i = l.index
    · rw [getEntry, if_pos hi] at hget
      have hq : q = p := by
        have := Option.some_inj.mp hget
        exact congrArg Prod.fst this
      have hb : b = c := by
        have := Option.some_inj.mp hget
        exact congrArg Prod.snd this
      subst hq hb hi
      rw [addTerm, if_pos rfl, if_neg hp, if_neg (by omega), if_neg (by omega)]
      apply getEntry_eq_none_of_no_key
      intro u hu hved
      exact hnodup.1 (hved ▸ List.mem_map_of_mem (fun e => e.1) hu)
    · rw [getEntry, if_neg hi] at hget
      rw [addTerm, if_neg hi, getEntry, if_neg hi]
      exact ih hnodup.2 hget

theorem foldl_add_preserves_getEntry {v : Nat} (l : List (Literal × Nat))
    (hl : ∀ t ∈ l, t.1.index ≠ v) :
    ∀ acc : RandomAccessibleLinearConstraint,
      getEntry (l.foldl
        (fun acc t =>
          { terms := (addTerm t.1 t.2 acc.terms).1,
            lower := acc.lower - ((addTerm t.1 t.2 acc.terms).2 : Int) }) acc).terms v
        = getEntry acc.terms v := by
  induction l with
  | nil => intro acc; rfl
  | cons t l ih =>
    intro acc
    rw [List.foldl_cons, ih (fun u hu => hl u (List.mem_cons_of_mem _ hu))]
    exact addTerm_preserves_getEntry (hl t (List.mem_cons_self _ _)) acc.terms

theorem mapInsert_get_same (v : Nat) (p : Bool) (a : Nat)
    (l : List (Nat × Bool × Nat)) :
    getEntry (mapInsert v p a l) v = some (p, a) := by
  induction l with
  | nil => rw [mapInsert, getEntry, if_pos rfl]
  | cons e l ih =>
    obtain ⟨i, q, b⟩ := e
    by_cases hi : i = v
    · rw [mapInsert, if_pos hi, getEntry, if_pos hi]
    · rw [mapInsert, if_neg hi, getEntry, if_neg hi, ih]

theorem mapInsert_get_other {v w : Nat} (hvw : v ≠ w) (p : Bool) (a : Nat)
    (l : List (Nat × Bool × Nat)) :
    getEntry (mapInsert v p a l) w = getEntry l w := by
  induction l with
  | nil => simp [mapInsert, getEntry, hvw]
  | cons e l ih =>
    obtain ⟨i, q, b⟩ := e
    by_cases hi : i = v
    · subst hi
      rw [mapInsert, if_pos rfl, getEntry, getEntry, if_neg hvw, if_neg hvw]
    · rw [mapInsert, if_neg hi, getEntry, getEntry, ih]

theorem foldl_ins_preserves_getEntry {v : Nat} (l : List (Literal × Nat))
    (hl : ∀ t ∈ l, t.1.index ≠ v) :
    ∀ acc : List (Nat × Bool × Nat),
      getEntry (l.foldl
        (fun acc t => if t.2 ≠ 0 then mapInsert t.1.index t.1.value t.2 acc else acc) acc) v
        = getEntry acc v := by
  induction l with
  | nil => intro acc; rfl
  | cons t l ih =>
    intro acc
    rw [List.foldl_cons, ih (fun u hu => hl u (List.mem_cons_of_mem _ hu))]
    by_cases h0 : t.2 ≠ 0
    · rw [if_pos h0, mapInsert_get_other (hl t (List.mem_cons_self _ _))]
    · rw [if_neg h0]

/-- After `replace_by_linear_constraint`, the entry of `v` is the unique
`v`-term of the source constraint (when its coefficient is nonzero). -/
theorem getEntry_replace_by {v : Nat} {lc : Literal} {m : Nat} (C : LinearConstraint)
    (hCf : C.terms.filter (fun t => t.1.index == v) = [(lc, m)]) (hm : m ≠ 0) :
    getEntry (replace_by_linear_constraint C).terms v = some (lc.value, m) := by
  have hlc : lc.index = v := by
    have : (lc, m) ∈ C.terms.filter (fun t => t.1.index == v) := by
      rw [hCf]; exact List.mem_singleton_self _
    have := List.of_mem_filter this
    simpa using this
  rw [replace_by_linear_constraint]
  suffices h : ∀ (l : List (Literal × Nat)) (acc : List (Nat × Bool × Nat)),
      l.filter (fun t => t.1.index == v) = [(lc, m)] →
      getEntry (l.foldl
        (fun acc t => if t.2 ≠ 0 then mapInsert t.1.index t.1.value t.2 acc else acc) acc) v
        = some (lc.value, m) by
    exact h C.terms [] hCf
  intro l
  induction l with
  | nil => intro acc h; simp at h
  | cons t l ih =>
    intro acc h
    rw [List.filter_cons] at h
    by_cases ht : (t.1.index == v) = true
    · rw [if_pos ht] at h
      have h1 : t = (lc, m) := (List.cons.injEq _ _ _ _ ▸ h).1
      have h2 : l.filter (fun t => t.1.index == v) = [] := (List.cons.injEq _ _ _ _ ▸ h).2
      subst h1
      rw [List.foldl_cons, if_pos hm]
      rw [foldl_ins_preserves_getEntry l (fun u hu hc => by
        have : u ∈ l.filter (fun t => t.1.index == v) := by
          apply List.mem_filter.mpr
          exact ⟨hu, by simpa using hc⟩
        rw [h2] at this
        cases this)]
      rw [show (lc, m).1.index = v from by simpa using ht]
      exact mapInsert_get_same v lc.value m _
    · rw [if_neg ht] at h
      rw [List.foldl_cons]
      by_cases h0 : t.2 ≠ 0
      · rw [if_pos h0]
        exact ih _ h
      · rw [if_neg h0]
        exact ih _ h

theorem filter_mul_index (C : LinearConstraint) (k v : Nat) :
    (C.mul k).terms.filter (fun t => t.1.index == v)
      = (C.terms.filter (fun t => t.1.index == v)).map (fun t => (t.1, t.2 * k)) := by
  show (C.terms.map (fun t => (t.1, t.2 * k))).filter (fun t => t.1.index == v) = _
  induction C.terms with
  | nil => rfl
  | cons t l ih =>
    rw [List.map_cons, List.filter_cons, List.filter_cons]
    by_cases ht : (t.1.index == v) = true
    · rw [if_pos ht, if_pos ht, List.map_cons, ih]
    · rw [if_neg ht, if_neg ht, ih]

theorem lhsVal_mul (x : Nat → Bool) (C : LinearConstraint) (k : Nat) :
    lhsVal x (C.mul k).terms = lhsVal x C.terms * k := by
  show lhsVal x (C.terms.map (fun t => (t.1, t.2 * k))) = _
  induction C.terms with
  | nil => simp [lhsVal]
  | cons t l ih =>
    rw [List.map_cons, lhsVal_cons, lhsVal_cons, ih, Nat.add_mul]
    by_cases h : litTrue x t.1 = true
    · rw [if_pos h, if_pos h]
    · rw [if_neg h, if_neg h, Nat.zero_mul]

theorem slackL_mul (x : Nat → Bool) (C : LinearConstraint) (k : Nat) :
    slackL x (C.mul k) = (k : Int) * slackL x C := by
  unfold slackL
  rw [show (C.mul k).lower = C.lower * k from rfl, lhsVal_mul]
  push_cast
  ring

theorem mapInsert_of_no_key {v : Nat} (p : Bool) (a : Nat)
    {acc : List (Nat × Bool × Nat)} (h : ∀ e ∈ acc, e.1 ≠ v) :
    mapInsert v p a acc = acc ++ [(v, p, a)] := by
  induction acc with
  | nil => rfl
  | cons e acc ih =>
    obtain ⟨i, q, b⟩ := e
    rw [mapInsert, if_neg (h (i, q, b) (List.mem_cons_self _ _)),
      ih (fun u hu => h u (List.mem_cons_of_mem _ hu)), List.cons_append]

theorem replace_by_fold_eq (l : List (Literal × Nat)) :
    ∀ acc : List (Nat × Bool × Nat),
      (∀ e ∈ acc, ∀ t ∈ l, e.1 ≠ t.1.index) →
      (l.map (fun t => t.1.index)).Nodup →
      l.foldl (fun acc t => if t.2 ≠ 0 then mapInsert t.1.index t.1.value t.2 acc else acc) acc
        = acc ++ (l.filter (fun t => t.2 ≠ 0)).map (fun t => (t.1.index, t.1.value, t.2)) := by
  induction l with
  | nil => intro acc _ _; simp
  | cons t l ih =>
    intro acc hdisj hnodup
    rw [List.map_cons, List.nodup_cons] at hnodup
    rw [List.foldl_cons, List.filter_cons]
    by_cases h0 : t.2 ≠ 0
    · rw [if_pos h0, if_pos (by simpa using h0)]
      rw [mapInsert_of_no_key t.1.value t.2
        (fun e he => hdisj e he t (List.mem_cons_self _ _))]
      rw [ih (acc ++ [(t.1.index, t.1.value, t.2)]) (by
        intro e he u hu
        rcases List.mem_append.mp he with h | h
        · exact hdisj e h u (List.mem_cons_of_mem _ hu)
        · have he2 : e = (t.1.index, t.1.value, t.2) := List.mem_singleton.mp h
          subst he2
          intro hc
          apply hnodup.1
          rw [show t.1.index = u.1.index from hc]
          exact List.mem_map_of_mem _ hu) hnodup.2]
      rw [List.map_cons, List.append_assoc, List.singleton_append]
    · rw [if_neg h0, if_neg (by simpa using h0)]
      exact ih acc (fun e he u hu => hdisj e he u (List.mem_cons_of_mem _ hu)) hnodup.2

/-- Explicit form of `replace_by_linear_constraint` when the source
constraint has one term per variable. -/
theorem replace_by_terms_of_nodup (C : LinearConstraint)
    (hnodup : (C.terms.map (fun t => t.1.index)).Nodup) :
    (replace_by_linear_constraint C).terms
      = (C.terms.filter (fun t => t.2 ≠ 0)).map (fun t => (t.1.index, t.1.value, t.2)) := by
  rw [replace_by_linear_constraint]
  exact replace_by_fold_eq C.terms [] (by intro e he; cases he) hnodup

theorem lhsValRA_map_embed (x : Nat → Bool) (l : List (Literal × Nat)) :
    lhsValRA x (l.map (fun t => (t.1.index, t.1.value, t.2))) = lhsVal x l := by
  rw [lhsValRA, List.map_map]
  rfl

theorem lhsVal_filter_nonzero (x : Nat → Bool) (l : List (Literal × Nat)) :
    lhsVal x (l.filter (fun t => t.2 ≠ 0)) = lhsVal x l := by
  induction l with
  | nil => rfl
  | cons t l ih =>
    rw [List.filter_cons, lhsVal_cons]
    by_cases h0 : t.2 ≠ 0
    · rw [if_pos (by simpa using h0), lhsVal_cons, ih]
    · rw [if_neg (by simpa using h0), ih]
      have h2 : t.2 = 0 := by omega
      rw [h2, ite_self, Nat.zero_add]

theorem slackRA_replace_by (x : Nat → Bool) (C : LinearConstraint)
    (hnodup : (C.terms.map (fun t => t.1.index)).Nodup) :
    slackRA x (replace_by_linear_constraint C) = slackL x C := by
  unfold slackRA slackL
  rw [replace_by_terms_of_nodup C hnodup, lhsValRA_map_embed, lhsVal_filter_nonzero]
  rfl

theorem addTerm_key_mem {l : Literal} {c : Nat} {terms : List (Nat × Bool × Nat)}
    {e : Nat × Bool × Nat} (he : e ∈ (addTerm l c terms).1) :
    e.1 ∈ terms.map (fun u => u.1) ∨ e.1 = l.index := by
  induction terms with
  | nil =>
    have : e = (l.index, l.value, c) := List.mem_singleton.mp he
    right
    rw [this]
  | cons u rest ih =>
    obtain ⟨i, p, a⟩ := u
    by_cases hi : i = l.index
    · rw [addTerm, if_pos hi] at he
      by_cases hp : p = l.value
      · rw [if_pos hp] at he
        rcases List.mem_cons.mp he with h | h
        · left; rw [h]; exact List.mem_cons_self _ _
        · left; exact List.mem_cons_of_mem _ (List.mem_map_of_mem _ h)
      · rw [if_neg hp] at he
        by_cases h1 : c < a
        · rw [if_pos h1] at he
          rcases List.mem_cons.mp he with h | h
          · left; rw [h]; exact List.mem_cons_self _ _
          · left; exact List.mem_cons_of_mem _ (List.mem_map_of_mem _ h)
        · rw [if_neg h1] at he
          by_cases h2 : a < c
          · rw [if_pos h2] at he
            rcases List.mem_cons.mp he with h | h
            · left; rw [h]; exact List.mem_cons_self _ _
            · left; exact List.mem_cons_of_mem _ (List.mem_map_of_mem _ h)
          · rw [if_neg h2] at he
            left
            exact List.mem_cons_of_mem _ (List.mem_map_of_mem _ he)
    · rw [addTerm, if_neg hi] at he
      rcases List.mem_cons.mp he with h | h
      · left; rw [h]; exact List.mem_cons_self _ _
      · rcases ih h with h3 | h3
        · left; exact List.mem_cons_of_mem _ h3
        · right; exact h3

theorem addTerm_keys_nodup {l : Literal} {c : Nat} {terms : List (Nat × Bool × Nat)}
    (hnodup : (terms.map (fun u => u.1)).Nodup) :
    (((addTerm l c terms).1).map (fun u => u.1)).Nodup := by
  induction terms with
  | nil => exact List.nodup_singleton _
  | cons u rest ih =>
    obtain ⟨i, p, a⟩ := u
    rw [List.map_cons, List.nodup_cons] at hnodup
    by_cases hi : i = l.index
    · rw [addTerm, if_pos hi]
      by_cases hp : p = l.value
      · rw [if_pos hp, List.map_cons, List.nodup_cons]
        exact hnodup
      · rw [if_neg hp]
        by_cases h1 : c < a
        · rw [if_pos h1, List.map_cons, List.nodup_cons]
          exact hnodup
        · rw [if_neg h1]
          by_cases h2 : a < c
          · rw [if_pos h2, List.map_cons, List.nodup_cons]
            exact hnodup
          · rw [if_neg h2]
            exact hnodup.2
    · rw [addTerm, if_neg hi, List.map_cons, List.nodup_cons]
      refine ⟨fun hc => ?_, ih hnodup.2⟩
      obtain ⟨e, he, hei⟩ := List.mem_map.mp hc
      rcases addTerm_key_mem he with h3 | h3
      · apply hnodup.1
        rw [show (i, p, a).1 = e.1 from hei.symm]
        exact h3
      · apply hi
        rw [show i = e.1 from hei.symm]
        exact h3

theorem foldl_add_keys_nodup (l : List (Literal × Nat)) :
    ∀ acc : RandomAccessibleLinearConstraint,
      ((acc.terms.map (fun u => u.1)).Nodup) →
      (((l.foldl
        (fun acc t =>
          { terms := (addTerm t.1 t.2 acc.terms).1,
            lower := acc.lower - ((addTerm t.1 t.2 acc.terms).2 : Int) }) acc).terms).map
          (fun u => u.1)).Nodup := by
  induction l with
  | nil => intro acc h; exact h
  | cons t l ih =>
    intro acc h
    rw [List.foldl_cons]
    exact ih _ (addTerm_keys_nodup h)

theorem filter_eq_singleton_decomp {α : Type} {p : α → Bool} {l : List α} {a : α}
    (h : l.filter p = [a]) :
    ∃ l1 l2, l = l1 ++ a :: l2 ∧ (∀ u ∈ l1, ¬ p u = true) ∧ (∀ u ∈ l2, ¬ p u = true) := by
  induction l with
  | nil => simp at h
  | cons b l ih =>
    rw [List.filter_cons] at h
    by_cases hb : p b = true
    · rw [if_pos hb] at h
      have h1 : b = a := (List.cons.injEq _ _ _ _ ▸ h).1
      have h2 : l.filter p = [] := (List.cons.injEq _ _ _ _ ▸ h).2
      refine ⟨[], l, ?_, ?_, ?_⟩
      · rw [h1]; rfl
      · intro u hu; cases hu
      · intro u hu
        simpa using List.filter_eq_nil_iff.mp h2 u hu
    · rw [if_neg hb] at h
      obtain ⟨l1, l2, hdec, hl1, hl2⟩ := ih h
      refine ⟨b :: l1, l2, ?_, ?_, hl2⟩
      · rw [hdec]; rfl
      · intro u hu
        rcases List.mem_cons.mp hu with h3 | h3
        · rw [h3]; exact hb
        · exact hl1 u h3

/-- C2: whenever the no-rounding condition
`c_slack·rα + r_slack·cα < cα·rα` holds, `Resolve::call` forms
`(rα/g)·C + (cα/g)·R` with `g = gcd(cα, rα)`, the resolving variable
cancels exactly during `add_assign` (no entry for it remains), and the
result's slack under every 0/1 assignment is the corresponding linear
combination of the slacks of `C` and `R`. -/
theorem resolve_no_rounding_cancels (C R : LinearConstraint) (v : Nat)
    (lc lr : Literal) (cAlpha rAlpha : Nat) (conflictOrder : Nat)
    (isFalseAt : Literal → Nat → Bool) (x : Nat → Bool)
    (hCf : C.terms.filter (fun t => t.1.index == v) = [(lc, cAlpha)])
    (hRf : R.terms.filter (fun t => t.1.index == v) = [(lr, rAlpha)])
    (hopp : lc = lr.neg)
    (hc : 1 ≤ cAlpha) (hr : 1 ≤ rAlpha)
    (hnodupC : (C.terms.map (fun t => t.1.index)).Nodup)
    (hguard : no_rounding_condition C R conflictOrder isFalseAt cAlpha rAlpha) :
    Resolve_call_no_rounding C R v
        = some (add_assign
            (replace_by_linear_constraint (C.mul (rAlpha / Nat.gcd cAlpha rAlpha)))
            (R.mul (cAlpha / Nat.gcd cAlpha rAlpha))) ∧
      getEntry (add_assign
          (replace_by_linear_constraint (C.mul (rAlpha / Nat.gcd cAlpha rAlpha)))
          (R.mul (cAlpha / Nat.gcd cAlpha rAlpha))).terms v = none ∧
      slackRA x (add_assign
          (replace_by_linear_constraint (C.mul (rAlpha / Nat.gcd cAlpha rAlpha)))
          (R.mul (cAlpha / Nat.gcd cAlpha rAlpha)))
        = ((rAlpha / Nat.gcd cAlpha rAlpha : Nat) : Int) * slackL x C
          + ((cAlpha / Nat.gcd cAlpha rAlpha : Nat) : Int) * slackL x R := by
  have hg : 0 < Nat.gcd cAlpha rAlpha := Nat.gcd_pos_of_pos_left _ (by omega)
  have hrq : 1 ≤ rAlpha / Nat.gcd cAlpha rAlpha :=
    Nat.div_pos (Nat.le_of_dvd (by omega) (Nat.gcd_dvd_right _ _)) hg
  have hcq : 1 ≤ cAlpha / Nat.gcd cAlpha rAlpha :=
    Nat.div_pos (Nat.le_of_dvd (by omega) (Nat.gcd_dvd_left _ _)) hg
  have hmulnodup : ((C.mul (rAlpha / Nat.gcd cAlpha rAlpha)).terms.map
      (fun t => t.1.index)).Nodup := by
    show ((C.terms.map (fun t => (t.1, t.2 * (rAlpha / Nat.gcd cAlpha rAlpha)))).map
      (fun t => t.1.index)).Nodup
    rw [List.map_map]
    exact hnodupC
  have hcoeff : cAlpha * (rAlpha / Nat.gcd cAlpha rAlpha)
      = rAlpha * (cAlpha / Nat.gcd cAlpha rAlpha) := by
    rw [← Nat.mul_div_assoc _ (Nat.gcd_dvd_right cAlpha rAlpha),
      ← Nat.mul_div_assoc _ (Nat.gcd_dvd_left cAlpha rAlpha), Nat.mul_comm]
  have hlr : lr.index = v := by
    have h1 : (lr, rAlpha) ∈ R.terms.filter (fun t => t.1.index == v) := by
      rw [hRf]; exact List.mem_singleton_self _
    have := List.of_mem_filter h1
    simpa using this
  refine ⟨?_, ?_, ?_⟩
  · rw [Resolve_call_no_rounding,
      find?_eq_of_filter_singleton hCf, find?_eq_of_filter_singleton hRf]
  · have hentry : getEntry (replace_by_linear_constraint
        (C.mul (rAlpha / Nat.gcd cAlpha rAlpha))).terms v
        = some (lc.value, cAlpha * (rAlpha / Nat.gcd cAlpha rAlpha)) := by
      apply getEntry_replace_by
      · rw [filter_mul_index, hCf]
        rfl
      · have : 1 ≤ cAlpha * (rAlpha / Nat.gcd cAlpha rAlpha) :=
          Nat.mul_pos (by omega) hrq
        omega
    have hRmulf : (R.mul (cAlpha / Nat.gcd cAlpha rAlpha)).terms.filter
        (fun t => t.1.index == v)
        = [(lr, rAlpha * (cAlpha / Nat.gcd cAlpha rAlpha))] := by
      rw [filter_mul_index, hRf]
      rfl
    obtain ⟨l1, l2, hdec, hl1, hl2⟩ := filter_eq_singleton_decomp hRmulf
    have hnodup0 : (((replace_by_linear_constraint
        (C.mul (rAlpha / Nat.gcd cAlpha rAlpha))).terms).map (fun u => u.1)).Nodup := by
      rw [replace_by_terms_of_nodup _ hmulnodup, List.map_map]
      exact List.Nodup.sublist
        (List.Sublist.map _ (List.filter_sublist _)) hmulnodup
    have hl1v : ∀ u ∈ l1, u.1.index ≠ v := fun u hu => by
      have := hl1 u hu
      simpa using this
    have hl2v : ∀ u ∈ l2, u.1.index ≠ v := fun u hu => by
      have := hl2 u hu
      simpa using this
    rw [hcoeff] at hentry
    have hpv : lc.value ≠ lr.value := by
      rw [hopp]
      show (!lr.value) ≠ lr.value
      cases lr.value <;> decide
    rw [add_assign, hdec, List.foldl_append, List.foldl_cons,
      foldl_add_preserves_getEntry l2 hl2v]
    have hmid := foldl_add_preserves_getEntry l1 hl1v
      ⟨(replace_by_linear_constraint (C.mul (rAlpha / Nat.gcd cAlpha rAlpha))).terms,
        (replace_by_linear_constraint (C.mul (rAlpha / Nat.gcd cAlpha rAlpha))).lower
          + ((R.mul (cAlpha / Nat.gcd cAlpha rAlpha)).lower : Int)⟩
    have hgetmid := hmid.trans hentry
    have hmidnodup := foldl_add_keys_nodup l1
      ⟨(replace_by_linear_constraint (C.mul (rAlpha / Nat.gcd cAlpha rAlpha))).terms,
        (replace_by_linear_constraint (C.mul (rAlpha / Nat.gcd cAlpha rAlpha))).lower
          + ((R.mul (cAlpha / Nat.gcd cAlpha rAlpha)).lower : Int)⟩ hnodup0
    have hrem := addTerm_removes_entry hmidnodup
      (show getEntry _ lr.index = some (lc.value, rAlpha * (cAlpha / Nat.gcd cAlpha rAlpha))
        from by rw [hlr]; exact hgetmid) hpv
    rw [hlr] at hrem
    exact hrem
  · rw [add_assign_slack, slackRA_replace_by x _ hmulnodup, slackL_mul, slackL_mul]

/-- Witness for C2 at the resolution of `1·x̄₀ ≥ 1` (conflict) with
`1·x₀ ≥ 1` (reason) on variable 0, with no falsified literals before
the propagation, under the all-true assignment. -/
theorem resolve_no_rounding_cancels_witness :
    no_rounding_condition (LinearConstraint.mk [(⟨0, false⟩, 1)] 1)
        (LinearConstraint.mk [(⟨0, true⟩, 1)] 1) 5 (fun _ _ => false) 1 1 ∧
      (Resolve_call_no_rounding (LinearConstraint.mk [(⟨0, false⟩, 1)] 1)
            (LinearConstraint.mk [(⟨0, true⟩, 1)] 1) 0
          = some (add_assign
              (replace_by_linear_constraint
                ((LinearConstraint.mk [(⟨0, false⟩, 1)] 1).mul (1 / Nat.gcd 1 1)))
              ((LinearConstraint.mk [(⟨0, true⟩, 1)] 1).mul (1 / Nat.gcd 1 1))) ∧
        getEntry (add_assign
            (replace_by_linear_constraint
              ((LinearConstraint.mk [(⟨0, false⟩, 1)] 1).mul (1 / Nat.gcd 1 1)))
            ((LinearConstraint.mk [(⟨0, true⟩, 1)] 1).mul (1 / Nat.gcd 1 1))).terms 0
          = none ∧
        slackRA (fun _ => true) (add_assign
            (replace_by_linear_constraint
              ((LinearConstraint.mk [(⟨0, false⟩, 1)] 1).mul (1 / Nat.gcd 1 1)))
            ((LinearConstraint.mk [(⟨0, true⟩, 1)] 1).mul (1 / Nat.gcd 1 1)))
          = ((1 / Nat.gcd 1 1 : Nat) : Int)
                * slackL (fun _ => true) (LinearConstraint.mk [(⟨0, false⟩, 1)] 1)
              + ((1 / Nat.gcd 1 1 : Nat) : Int)
                * slackL (fun _ => true) (LinearConstraint.mk [(⟨0, true⟩, 1)] 1)) :=
  ⟨by decide,
    resolve_no_rounding_cancels (LinearConstraint.mk [(⟨0, false⟩, 1)] 1)
      (LinearConstraint.mk [(⟨0, true⟩, 1)] 1) 0 ⟨0, false⟩ ⟨0, true⟩ 1 1 5
      (fun _ _ => false) (fun _ => true) (by decide) (by decide) (by decide)
      (by decide) (by decide) (by decide) (by decide)⟩

/-! ### C3: propagation scan of the weighted-linear engine

Per-row body of `IntegerLinearConstraintTheory::assign` after `sup` has
been decremented by the coefficient of the freshly falsified literal.
`Row` carries the term list (sorted by coefficient descending), the
right-hand side `lower`, the cached upper bound `sup` on the satisfiable
left-hand side, and the cached `max_unassigned_coefficient`. -/

structure Row where
  terms : List (Literal × Nat)
  lower : Nat
  sup : Nat
  max_unassigned_coefficient : Nat
deriving DecidableEq, Repr

/-- The emission loop: walk the terms from position `k` (the first
unassigned position), stop at the first coefficient with
`sup ≥ lower + a`, and emit a propagation callback for every unassigned
literal before that point. -/
def emitPropagations (sup lower : Nat) (assigned : Nat → Bool) :
    List (Literal × Nat) → List Literal
  | [] => []
  | (lit, a) :: rest =>
    if sup ≥ lower + a then []
    else
      (if assigned lit.index then [] else [lit]) ++ emitPropagations sup lower assigned rest

/-- The per-row scan of `IntegerLinearConstraintTheory::assign`: skip
the row when `sup ≥ lower + max_unassigned_coefficient`; otherwise walk
from the front, skipping the assigned prefix (the source's first loop,
which also refreshes `max_unassigned_coefficient` — that refresh does
not affect which callbacks fire), then emit propagations.  Returns the
list of emitted literals. -/
def assign_scan_row (row : Row) (assigned : Nat → Bool) : List Literal :=
  if row.sup ≥ row.lower + row.max_unassigned_coefficient then []
  else
    emitPropagations row.sup row.lower assigned
      (row.terms.dropWhile (fun t => assigned t.1.index))

theorem mem_emitPropagations {sup lower : Nat} {assigned : Nat → Bool}
    {l : List (Literal × Nat)} {lit : Literal}
    (h : lit ∈ emitPropagations sup lower assigned l) :
    ∃ a, (lit, a) ∈ l ∧ assigned lit.index = false ∧ sup < lower + a := by
  induction l with
  | nil => cases h
  | cons t l ih =>
    obtain ⟨u, a⟩ := t
    rw [emitPropagations] at h
    by_cases hbr : sup ≥ lower + a
    · rw [if_pos hbr] at h
      cases h
    · rw [if_neg hbr] at h
      rcases List.mem_append.mp h with h1 | h1
      · by_cases hu : assigned u.index = true
        · rw [if_pos hu] at h1
          cases h1
        · rw [if_neg hu] at h1
          have : lit = u := List.mem_singleton.mp h1
          subst this
          exact ⟨a, List.mem_cons_self _ _, by simpa using hu, by omega⟩
      · obtain ⟨b, hb, hub, hsb⟩ := ih h1
        exact ⟨b, List.mem_cons_of_mem _ hb, hub, hsb⟩

theorem emitPropagations_complete {sup lower : Nat} {assigned : Nat → Bool}
    {l : List (Literal × Nat)} {lit : Literal} {a : Nat}
    (hsorted : l.Pairwise (fun s t => t.2 ≤ s.2))
    (hmem : (lit, a) ∈ l) (hun : assigned lit.index = false)
    (hforce : sup < lower + a) :
    lit ∈ emitPropagations sup lower assigned l := by
  induction l with
  | nil => cases hmem
  | cons t l ih =>
    obtain ⟨u, b⟩ := t
    rw [List.pairwise_cons] at hsorted
    rcases List.mem_cons.mp hmem with h1 | h1
    · rw [Prod.mk.injEq] at h1
      obtain ⟨hu, hb⟩ := h1
      subst hu hb
      rw [emitPropagations, if_neg (by omega)]
      apply List.mem_append_left
      rw [if_neg (by simp [hun])]
      exact List.mem_singleton_self _
    · have hba : a ≤ b := hsorted.1 (lit, a) h1
      rw [emitPropagations, if_neg (by omega)]
      exact List.mem_append_right _ (ih hsorted.2 h1)

/-- C3: the assign scan of a weighted-linear row (terms sorted by
coefficient descending, `sup` already decremented, cached
`max_unassigned_coefficient` an upper bound on the unassigned
coefficients) emits a propagation exactly for the currently unassigned
literals whose coefficient `a` satisfies `a > sup − rhs`
(i.e. `sup < rhs + a`), and for no other literal. -/
theorem assign_scan_row_emits_exactly_forced (row : Row) (assigned : Nat → Bool)
    (lit : Literal)
    (hsorted : row.terms.Pairwise (fun s t => t.2 ≤ s.2))
    (hmuc : ∀ t ∈ row.terms, assigned t.1.index = false →
      t.2 ≤ row.max_unassigned_coefficient) :
    lit ∈ assign_scan_row row assigned
      ↔ ∃ a, (lit, a) ∈ row.terms ∧ assigned lit.index = false ∧
          row.sup < row.lower + a := by
  unfold assign_scan_row
  by_cases hskip : row.sup ≥ row.lower + row.max_unassigned_coefficient
  · rw [if_pos hskip]
    constructor
    · intro h; cases h
    · intro ⟨a, hmem, hun, hforce⟩
      have := hmuc (lit, a) hmem hun
      omega
  · rw [if_neg hskip]
    constructor
    · intro h
      obtain ⟨a, hmem, hun, hforce⟩ := mem_emitPropagations h
      exact ⟨a, (List.dropWhile_sublist _).subset hmem, hun, hforce⟩
    · intro ⟨a, hmem, hun, hforce⟩
      apply emitPropagations_complete
        (List.Pairwise.sublist (List.dropWhile_sublist _) hsorted) ?_ hun hforce
      have hsplit : List.takeWhile (fun t => assigned t.1.index) row.terms
          ++ List.dropWhile (fun t => assigned t.1.index) row.terms = row.terms :=
        List.takeWhile_append_dropWhile _ _
      rcases List.mem_append.mp (hsplit ▸ hmem) with h1 | h1
      · have h2 := List.mem_takeWhile_imp h1
        simp only at h2
        rw [hun] at h2
        cases h2
      · exact h1

/-- Witness for C3: row `3·x₀ + 2·x₁ + 1·x₂ ≥ 3` with `x₀` assigned,
`sup = 4`: exactly `x₁` is propagated. -/
theorem assign_scan_row_emits_exactly_forced_witness :
    (Row.mk [(⟨0, true⟩, 3), (⟨1, true⟩, 2), (⟨2, true⟩, 1)] 3 4 2).terms.Pairwise
        (fun s t => t.2 ≤ s.2) ∧
      (∀ t ∈ (Row.mk [(⟨0, true⟩, 3), (⟨1, true⟩, 2), (⟨2, true⟩, 1)] 3 4 2).terms,
        (fun i => i == 0) t.1.index = false →
          t.2 ≤ (Row.mk [(⟨0, true⟩, 3), (⟨1, true⟩, 2), (⟨2, true⟩, 1)] 3 4
            2).max_unassigned_coefficient) ∧
      ((⟨1, true⟩ : Literal) ∈ assign_scan_row
          (Row.mk [(⟨0, true⟩, 3), (⟨1, true⟩, 2), (⟨2, true⟩, 1)] 3 4 2) (fun i => i == 0)
        ↔ ∃ a, ((⟨1, true⟩ : Literal), a)
              ∈ (Row.mk [(⟨0, true⟩, 3), (⟨1, true⟩, 2), (⟨2, true⟩, 1)] 3 4 2).terms ∧
            (fun i => i == 0) (⟨1, true⟩ : Literal).index = false ∧
            (Row.mk [(⟨0, true⟩, 3), (⟨1, true⟩, 2), (⟨2, true⟩, 1)] 3 4 2).sup
              < (Row.mk [(⟨0, true⟩, 3), (⟨1, true⟩, 2), (⟨2, true⟩, 1)] 3 4 2).lower + a) :=
  ⟨by decide, by decide,
    assign_scan_row_emits_exactly_forced
      (Row.mk [(⟨0, true⟩, 3), (⟨1, true⟩, 2), (⟨2, true⟩, 1)] 3 4 2)
      (fun i => i == 0) ⟨1, true⟩ (by decide) (by decide)⟩

/-! ### C4: the backjump level is strictly below the decision level

`CalculatePropagationLevel::call` over a snapshot of the trail.
`TrailView` abstracts the queries the routine makes of the engine. -/

structure TrailView where
  isFalse : Literal → Bool
  isTrue : Literal → Bool
  isAssigned : Nat → Bool
  decisionLevel : Nat → Nat

/-- Insertion into a sorted list (ascending). -/
def insertSorted (n : Nat) : List Nat → List Nat
  | [] => [n]
  | m :: rest => if n ≤ m then n :: m :: rest else m :: insertSorted n rest

/-- Sort ascending (the source copies the per-level map into an array
and sorts it by decision level). -/
def sortAsc (l : List Nat) : List Nat := l.foldr insertSorted []

/-- The decision levels present in the per-level map: level 0 (always
inserted first), the levels of falsified literals, and — when
`include_nonfalsified_literals` is set — the levels of true literals. -/
def presentLevels (C : LinearConstraint) (env : TrailView) (incl : Bool) : List Nat :=
  sortAsc ((0 :: C.terms.filterMap (fun t =>
    if env.isFalse t.1 then some (env.decisionLevel t.1.index)
    else if incl && env.isTrue t.1 then some (env.decisionLevel t.1.index)
    else none)).dedup)

/-- Upper bound of the left-hand side at decision level `k`: the total
coefficient sum minus the drops of all levels `≤ k` (the source keeps a
running difference; summing the non-dropped terms gives the same
value). -/
def supAtLevel (C : LinearConstraint) (env : TrailView) (k : Nat) : Nat :=
  (C.terms.map (fun t =>
    if env.isFalse t.1 = true ∧ env.decisionLevel t.1.index ≤ k then 0 else t.2)).sum

/-- Maximum coefficient still assignable after backjumping to level `k`:
unassigned literals, plus literals recorded in the map at levels `> k`
(the source computes this by a right-to-left running maximum). -/
def maxIntervalAtLevel (C : LinearConstraint) (env : TrailView) (incl : Bool) (k : Nat) : Nat :=
  (C.terms.map (fun t =>
    if env.isAssigned t.1.index = false
        ∨ (env.isFalse t.1 = true ∧ k < env.decisionLevel t.1.index)
        ∨ (incl = true ∧ env.isTrue t.1 = true ∧ k < env.decisionLevel t.1.index)
      then t.2 else 0)).foldr max 0

/-- The final scan: walk the levels in ascending order; `none` at the
first level whose `sup` is below `lower` (the constraint is conflicting
there), `some k` at the first level where `sup − max_interval < lower`
(the constraint propagates there). -/
def scanLevels (C : LinearConstraint) (env : TrailView) (incl : Bool) :
    List Nat → Option Nat
  | [] => none
  | k :: rest =>
    if supAtLevel C env k < C.lower then none
    else if supAtLevel C env k - maxIntervalAtLevel C env incl k < C.lower then some k
    else scanLevels C env incl rest

/-- Model of `CalculatePropagationLevel::call`. -/
def calculate_propagation_level (C : LinearConstraint) (env : TrailView)
    (incl : Bool) : Option Nat :=
  scanLevels C env incl (presentLevels C env incl)

/-- Sum of the coefficients of the literals not currently false: the
`sup` of the constraint on the current trail. -/
def lhsSupNow (C : LinearConstraint) (env : TrailView) : Nat :=
  (C.terms.map (fun t => if env.isFalse t.1 = true then 0 else t.2)).sum

theorem scanLevels_some {C : LinearConstraint} {env : TrailView} {incl : Bool}
    {l : List Nat} {k : Nat} (h : scanLevels C env incl l = some k) :
    C.lower ≤ supAtLevel C env k := by
  induction l with
  | nil => cases h
  | cons m rest ih =>
    rw [scanLevels] at h
    by_cases h1 : supAtLevel C env m < C.lower
    · rw [if_pos h1] at h
      cases h
    · rw [if_neg h1] at h
      by_cases h2 : supAtLevel C env m - maxIntervalAtLevel C env incl m < C.lower
      · rw [if_pos h2] at h
        have : m = k := Option.some_inj.mp h
        subst this
        omega
      · rw [if_neg h2] at h
        exact ih h

/-- C4: whenever the constraint is violated on the current trail
(`sup < lower`) and every falsified literal was assigned at level `≤ D`
(the current decision level), a level returned by
`CalculatePropagationLevel::call` is strictly below `D`. -/
theorem propagation_level_lt_decision_level (C : LinearConstraint) (env : TrailView)
    (D k : Nat)
    (hviol : lhsSupNow C env < C.lower)
    (hlev : ∀ t ∈ C.terms, env.isFalse t.1 = true → env.decisionLevel t.1.index ≤ D)
    (hret : calculate_propagation_level C env true = some k) :
    k < D := by
  have hsup := scanLevels_some hret
  have hex : ∃ t ∈ C.terms, env.isFalse t.1 = true ∧ k < env.decisionLevel t.1.index := by
    by_contra hc
    push_neg at hc
    have heq : supAtLevel C env k = lhsSupNow C env := by
      unfold supAtLevel lhsSupNow
      congr 1
      apply List.map_congr_left
      intro t ht
      by_cases hf : env.isFalse t.1 = true
      · have hle := hc t ht hf
        rw [if_pos ⟨hf, hle⟩, if_pos hf]
      · rw [if_neg (fun hcon => hf hcon.1), if_neg hf]
    omega
  obtain ⟨t, ht, hf, hk⟩ := hex
  have := hlev t ht hf
  omega

/-- Witness for C4: `x₀ + x₁ ≥ 1`, both literals false (levels 1 and 2),
current decision level 2: the computed level is 1 < 2. -/
theorem propagation_level_lt_decision_level_witness :
    lhsSupNow (LinearConstraint.mk [(⟨0, true⟩, 1), (⟨1, true⟩, 1)] 1)
        (TrailView.mk (fun l => l.value) (fun l => !l.value) (fun _ => true)
          (fun i => i + 1))
      < (LinearConstraint.mk [(⟨0, true⟩, 1), (⟨1, true⟩, 1)] 1).lower ∧
      (∀ t ∈ (LinearConstraint.mk [(⟨0, true⟩, 1), (⟨1, true⟩, 1)] 1).terms,
        (TrailView.mk (fun l => l.value) (fun l => !l.value) (fun _ => true)
          (fun i => i + 1)).isFalse t.1 = true →
        (TrailView.mk (fun l => l.value) (fun l => !l.value) (fun _ => true)
          (fun i => i + 1)).decisionLevel t.1.index ≤ 2) ∧
      calculate_propagation_level (LinearConstraint.mk [(⟨0, true⟩, 1), (⟨1, true⟩, 1)] 1)
        (TrailView.mk (fun l => l.value) (fun l => !l.value) (fun _ => true)
          (fun i => i + 1)) true = some 1 ∧
      1 < 2 :=
  ⟨by decide, by decide, by decide,
    propagation_level_lt_decision_level
      (LinearConstraint.mk [(⟨0, true⟩, 1), (⟨1, true⟩, 1)] 1)
      (TrailView.mk (fun l => l.value) (fun l => !l.value) (fun _ => true)
        (fun i => i + 1)) 2 1 (by decide) (by decide) (by decide)⟩

/-! ### C8 / C9: the search driver's loop (solve_pb/src/main.rs)

One iteration of the `loop` in `solve`, abstracted over the
observations the driver makes of the engine.  The body is the source's
`if`/`else if` chain verbatim; the wall-clock budget check that the
specification describes is commented out in the source, so no branch of
the chain can produce `Status::Indefinite`. -/

/-- Verdicts `Status` (main.rs) of `solve`.  `indefinite` is
printed as `s UNKNOWN` by `main`. -/
inductive Status where
  | satisfiable (solution : List Bool)
  | unsatisfiable
  | indefinite
deriving DecidableEq, Repr

/-- The status line `main` prints for each verdict. -/
def status_line : Status → String
  | Status.satisfiable _ => "s SATISFIABLE"
  | Status.unsatisfiable => "s UNSATISFIABLE"
  | Status.indefinite => "s UNKNOWN"

/-- What one iteration of the search loop observes of the engine. -/
structure LoopObservation where
  conflict : Bool
  decision_level : Nat
  analyze_unsat : Bool
  all_assigned : Bool
  solution : List Bool
  conflict_count : Nat
  previous_restart_timestamp : Nat
  lower_tail_probability : ℚ
deriving Repr

/-- What one iteration of the search loop does. -/
inductive LoopAction where
  | halt (status : Status)
  | learn
  | restart
  | decide_next
deriving DecidableEq, Repr

/-- One iteration of the `loop` in `solve`: on a conflict at level 0 (or
when the analyzer reports unsatisfiable) halt with UNSAT, otherwise
learn; with every variable assigned halt with SAT; otherwise restart
when `conflict_count ≥ previous_restart + 10000`, or when
`conflict_count ≥ previous_restart + 20` and the PLBD watcher's
lower-tail probability exceeds `0.6`; otherwise decide.  The source's
wall-clock budget check is commented out, so it does not appear here. -/
def solve_loop_step (obs : LoopObservation) : LoopAction :=
  if obs.conflict then
    if obs.decision_level = 0 then LoopAction.halt Status.unsatisfiable
    else if obs.analyze_unsat then LoopAction.halt Status.unsatisfiable
    else LoopAction.learn
  else if obs.all_assigned then LoopAction.halt (Status.satisfiable obs.solution)
  else if obs.conflict_count ≥ obs.previous_restart_timestamp + 10000
      ∨ (obs.conflict_count ≥ obs.previous_restart_timestamp + 20
        ∧ obs.lower_tail_probability > 3/5) then LoopAction.restart
  else LoopAction.decide_next

/-- C9 (code_bug evidence): no iteration of the search loop can halt
with `Status.indefinite` — the budget check that would produce it is
commented out in `solve`, so `s UNKNOWN` is unreachable. -/
theorem solve_loop_never_indefinite (obs : LoopObservation) :
    solve_loop_step obs ≠ LoopAction.halt Status.indefinite := by
  unfold solve_loop_step
  split_ifs <;> simp

/-- Witness for C9's evidence theorem at a concrete observation. -/
theorem solve_loop_never_indefinite_witness :
    solve_loop_step (LoopObservation.mk false 0 false false [] 0 0 0)
      ≠ LoopAction.halt Status.indefinite :=
  solve_loop_never_indefinite (LoopObservation.mk false 0 false false [] 0 0 0)

/-- C8 counterexample: with 10000 conflicts since the previous restart
and the watcher statistic at `0 ≤ 0.6`, the driver still restarts — the
claim that it never restarts when `z ≤ 0.6` is false on the code. -/
theorem restart_fires_with_low_z_counterexample :
    solve_loop_step
        (LoopObservation.mk false 3 false false [] 10000 0 0) = LoopAction.restart ∧
      ¬ ((LoopObservation.mk false 3 false false [] 10000 0
          0).lower_tail_probability > 3/5) := by
  constructor
  · unfold solve_loop_step
    norm_num
  · norm_num

/-- C8 amended: the driver restarts only with at least 20 conflicts
since the previous restart; when the watcher statistic is `≤ 0.6` a
restart can only be the unconditional 10000-conflict fallback, and with
fewer than 10000 conflicts elapsed a restart requires the statistic to
exceed `0.6`. -/
theorem restart_policy (obs : LoopObservation)
    (h : solve_loop_step obs = LoopAction.restart) :
    obs.conflict = false ∧ obs.all_assigned = false ∧
      obs.conflict_count ≥ obs.previous_restart_timestamp + 20 ∧
      (obs.lower_tail_probability ≤ 3/5 →
        obs.conflict_count ≥ obs.previous_restart_timestamp + 10000) ∧
      (obs.conflict_count < obs.previous_restart_timestamp + 10000 →
        obs.lower_tail_probability > 3/5) := by
  unfold solve_loop_step at h
  by_cases hc : obs.conflict = true
  · rw [if_pos hc] at h
    split_ifs at h <;> cases h
  · rw [if_neg hc] at h
    by_cases ha : obs.all_assigned = true
    · rw [if_pos ha] at h
      cases h
    · rw [if_neg ha] at h
      by_cases hr : obs.conflict_count ≥ obs.previous_restart_timestamp + 10000
          ∨ (obs.conflict_count ≥ obs.previous_restart_timestamp + 20
            ∧ obs.lower_tail_probability > 3/5)
      · refine ⟨by simpa using hc, by simpa using ha, ?_, ?_, ?_⟩
        · rcases hr with h1 | ⟨h1, _⟩ <;> omega
        · intro hp
          rcases hr with h1 | ⟨_, h2⟩
          · exact h1
          · exact absurd h2 (not_lt.mpr hp)
        · intro hcc
          rcases hr with h1 | ⟨_, h2⟩
          · omega
          · exact h2
      · rw [if_neg hr] at h
        cases h

/-- Witness for the amended C8: 25 conflicts since the last restart and
statistic `0.9 > 0.6` produce a restart satisfying the policy. -/
theorem restart_policy_witness :
    solve_loop_step (LoopObservation.mk false 3 false false [] 25 0 (9/10))
        = LoopAction.restart ∧
      ((LoopObservation.mk false 3 false false [] 25 0 (9/10)).conflict = false ∧
        (LoopObservation.mk false 3 false false [] 25 0 (9/10)).all_assigned = false ∧
        (LoopObservation.mk false 3 false false [] 25 0 (9/10)).conflict_count
          ≥ (LoopObservation.mk false 3 false false [] 25 0
              (9/10)).previous_restart_timestamp + 20 ∧
        ((LoopObservation.mk false 3 false false [] 25 0
            (9/10)).lower_tail_probability ≤ 3/5 →
          (LoopObservation.mk false 3 false false [] 25 0 (9/10)).conflict_count
            ≥ (LoopObservation.mk false 3 false false [] 25 0
                (9/10)).previous_restart_timestamp + 10000) ∧
        ((LoopObservation.mk false 3 false false [] 25 0 (9/10)).conflict_count
            < (LoopObservation.mk false 3 false false [] 25 0
                (9/10)).previous_restart_timestamp + 10000 →
          (LoopObservation.mk false 3 false false [] 25 0
            (9/10)).lower_tail_probability > 3/5)) := by
  have hstep : solve_loop_step (LoopObservation.mk false 3 false false [] 25 0 (9/10))
      = LoopAction.restart := by
    unfold solve_loop_step
    norm_num
  exact ⟨hstep, restart_policy _ hstep⟩

/-! ### C10: `DecisionStack::assign`

The per-variable `State` stores the committed polarity and the
assignment order; the source uses `usize::MAX` as the "unassigned"
sentinel, modelled as `Option Nat`.  `assign` carries a `debug_assert`
that the variable is unassigned — there is no runtime error path and no
`AlreadyAssigned` error anywhere in the source — and then appends the
assignment unconditionally; the model is that (release) behavior. -/

inductive Reason where
  | decision : Reason
  | propagation (explain_key : Nat) : Reason
deriving DecidableEq, Repr

def Reason.is_decision : Reason → Bool
  | Reason.decision => true
  | Reason.propagation _ => false

structure DSVarState where
  value : Bool
  order : Option Nat
deriving DecidableEq, Repr

structure DSAssignment where
  index : Nat
  decision_level : Nat
  reason : Reason
deriving DecidableEq, Repr

structure DSDecision where
  assignment_order : Nat
deriving DecidableEq, Repr

structure DecisionStack where
  states : List DSVarState
  assignment_stack : List DSAssignment
  decision_stack : List DSDecision
deriving DecidableEq, Repr

/-- Lookup `states[index]` (indices are valid whenever the caller respects
`add_variable`; out-of-range reads return a dummy unassigned state). -/
def DecisionStack.getState (ds : DecisionStack) (index : Nat) : DSVarState :=
  (ds.states.get? index).getD ⟨false, none⟩

def DecisionStack.is_assigned (ds : DecisionStack) (index : Nat) : Bool :=
  (ds.getState index).order.isSome

def DecisionStack.is_true (ds : DecisionStack) (literal : Literal) : Bool :=
  (ds.getState literal.index).order.isSome
    && ((ds.getState literal.index).value == literal.value)

def DecisionStack.number_of_assignments (ds : DecisionStack) : Nat :=
  ds.assignment_stack.length

def DecisionStack.decision_level (ds : DecisionStack) : Nat :=
  ds.decision_stack.length

def DecisionStack.get_reason (ds : DecisionStack) (index : Nat) : Option Reason :=
  match (ds.getState index).order with
  | none => none
  | some order => (ds.assignment_stack.get? order).map (fun a => a.reason)

/-- Model of `DecisionStack::assign`: push a decision frame when the reason is a
decision, append the assignment at the (new) decision level, and record
the order and polarity in the variable's state.  The unassigned
precondition is only a `debug_assert` in the source. -/
def DecisionStack.assign (ds : DecisionStack) (literal : Literal)
    (reason : Reason) : DecisionStack :=
  let assignment_order := ds.assignment_stack.length
  let decision_stack :=
    if reason.is_decision then ds.decision_stack ++ [⟨assignment_order⟩]
    else ds.decision_stack
  { states := ds.states.set literal.index ⟨literal.value, some assignment_order⟩,
    assignment_stack := ds.assignment_stack
      ++ [⟨literal.index, decision_stack.length, reason⟩],
    decision_stack := decision_stack }

theorem list_get?_set_same {α : Type} (l : List α) (i : Nat) (a : α)
    (h : i < l.length) : (l.set i a).get? i = some a := by
  induction l generalizing i with
  | nil => cases h
  | cons b l ih =>
    cases i with
    | zero => rfl
    | succ j =>
      exact ih j (by simp at h; omega)

theorem list_get?_append_length {α : Type} (l : List α) (a : α) :
    (l ++ [a]).get? l.length = some a := by
  induction l with
  | nil => rfl
  | cons b l ih => simpa using ih

/-- C10 counterexample: on a stack where variable 0 is already assigned,
`assign` does not fail and does not leave the trail unchanged — it
appends a second trail entry (there is no `AlreadyAssigned` error in the
source; the precondition is only a debug assertion). -/
theorem assign_already_assigned_counterexample :
    (DecisionStack.mk [⟨true, some 0⟩] [⟨0, 1, Reason.decision⟩] [⟨0⟩]).is_assigned 0
        = true ∧
      ((DecisionStack.mk [⟨true, some 0⟩] [⟨0, 1, Reason.decision⟩] [⟨0⟩]).assign
          ⟨0, false⟩ Reason.decision).number_of_assignments
        ≠ (DecisionStack.mk [⟨true, some 0⟩] [⟨0, 1, Reason.decision⟩]
            [⟨0⟩]).number_of_assignments := by
  constructor
  · decide
  · decide

/-- C10 amended: `assign` has no runtime failure path; on an unassigned
variable it succeeds as specified — the trail grows by one, the literal
becomes true with the recorded order and reason, and a decision frame is
pushed exactly when the reason is a decision. -/
theorem assign_on_unassigned (ds : DecisionStack) (literal : Literal) (reason : Reason)
    (hun : ds.is_assigned literal.index = false)
    (hidx : literal.index < ds.states.length) :
    (ds.assign literal reason).number_of_assignments = ds.number_of_assignments + 1 ∧
      (ds.assign literal reason).is_true literal = true ∧
      ((ds.assign literal reason).getState literal.index).order
        = some ds.assignment_stack.length ∧
      (ds.assign literal reason).get_reason literal.index = some reason ∧
      (ds.assign literal reason).decision_level
        = ds.decision_level + (if reason.is_decision then 1 else 0) := by
  have hget : ((ds.assign literal reason).getState literal.index)
      = ⟨literal.value, some ds.assignment_stack.length⟩ := by
    unfold DecisionStack.assign DecisionStack.getState
    simp only
    rw [list_get?_set_same _ _ _ hidx]
    rfl
  refine ⟨?_, ?_, ?_, ?_, ?_⟩
  · show (ds.assignment_stack ++ [_]).length = ds.assignment_stack.length + 1
    rw [List.length_append]
    rfl
  · unfold DecisionStack.is_true
    rw [hget]
    simp
  · rw [hget]
  · unfold DecisionStack.get_reason
    rw [hget]
    show ((ds.assignment_stack ++ [_]).get? ds.assignment_stack.length).map _ = _
    rw [list_get?_append_length]
    rfl
  · show (if reason.is_decision then ds.decision_stack ++ [_]
        else ds.decision_stack).length = _
    by_cases hd : reason.is_decision = true
    · rw [if_pos hd, if_pos hd, List.length_append]
      rfl
    · rw [if_neg hd, if_neg hd]
      rfl

/-- Witness for the amended C10: assigning `x₁` on a stack with `x₀`
assigned and `x₁` fresh. -/
theorem assign_on_unassigned_witness :
    (DecisionStack.mk [⟨true, some 0⟩, ⟨false, none⟩] [⟨0, 1, Reason.decision⟩]
        [⟨0⟩]).is_assigned 1 = false ∧
      (1 : Nat) < (DecisionStack.mk [⟨true, some 0⟩, ⟨false, none⟩]
        [⟨0, 1, Reason.decision⟩] [⟨0⟩]).states.length ∧
      (((DecisionStack.mk [⟨true, some 0⟩, ⟨false, none⟩] [⟨0, 1, Reason.decision⟩]
            [⟨0⟩]).assign ⟨1, true⟩ Reason.decision).number_of_assignments
          = (DecisionStack.mk [⟨true, some 0⟩, ⟨false, none⟩] [⟨0, 1, Reason.decision⟩]
            [⟨0⟩]).number_of_assignments + 1 ∧
        ((DecisionStack.mk [⟨true, some 0⟩, ⟨false, none⟩] [⟨0, 1, Reason.decision⟩]
            [⟨0⟩]).assign ⟨1, true⟩ Reason.decision).is_true ⟨1, true⟩ = true ∧
        (((DecisionStack.mk [⟨true, some 0⟩, ⟨false, none⟩] [⟨0, 1, Reason.decision⟩]
            [⟨0⟩]).assign ⟨1, true⟩ Reason.decision).getState 1).order = some 1 ∧
        ((DecisionStack.mk [⟨true, some 0⟩, ⟨false, none⟩] [⟨0, 1, Reason.decision⟩]
            [⟨0⟩]).assign ⟨1, true⟩ Reason.decision).get_reason 1
          = some Reason.decision ∧
        ((DecisionStack.mk [⟨true, some 0⟩, ⟨false, none⟩] [⟨0, 1, Reason.decision⟩]
            [⟨0⟩]).assign ⟨1, true⟩ Reason.decision).decision_level
          = (DecisionStack.mk [⟨true, some 0⟩, ⟨false, none⟩] [⟨0, 1, Reason.decision⟩]
            [⟨0⟩]).decision_level + (if Reason.decision.is_decision then 1 else 0)) :=
  ⟨by decide, by decide,
    assign_on_unassigned
      (DecisionStack.mk [⟨true, some 0⟩, ⟨false, none⟩] [⟨0, 1, Reason.decision⟩] [⟨0⟩])
      ⟨1, true⟩ Reason.decision (by decide) (by decide)⟩

end PBSolver
